import Mathlib

/-!
Shallow embedding of the EOPatch container from core/eolearn/core/eodata.py and
of the timestamp gate of the Sentinel Hub input task from
io/eolearn/io/processing_api.py.

Python values are modelled as follows: numpy arrays become NdArray (a shape
together with a row-major flattened buffer of integer samples), datetime
objects become Nat codes, opaque pickleable objects become Nat codes, and the
values assignable to EOPatch attributes become the PyVal type.  Fallible
Python code (raising ValueError / TypeError) returns Except EOError.
-/

set_option autoImplicit false

/-- Modelled from the spec: the namespace registry (the FeatureType enumeration
of feature_types.py, which is not among the provided sources).  Section 3 of
the spec fixes the closed set of namespaces: five per-time namespaces (data,
mask, scalar, label, vector), their five timeless counterparts, the metadata
mapping, and the two singleton namespaces bbox and timestamp. -/
inductive FeatureType where
  | data
  | mask
  | scalar
  | label
  | vector
  | data_timeless
  | mask_timeless
  | scalar_timeless
  | label_timeless
  | vector_timeless
  | meta_info
  | bbox
  | timestamp
deriving DecidableEq, Repr

/-- Modelled from the spec: the stable, deterministic iteration order over all
namespace identifiers (section 4.1), with the mapping namespaces first and the
two singleton namespaces last. -/
def allFeatureTypes : List FeatureType :=
  [.data, .mask, .scalar, .label, .vector,
   .data_timeless, .mask_timeless, .scalar_timeless, .label_timeless, .vector_timeless,
   .meta_info, .bbox, .timestamp]

/-- Modelled from the spec: FeatureType.has_dict of the missing
feature_types.py.  Every namespace whose container is a mapping, i.e. all
namespaces except the bbox and timestamp singletons. -/
def FeatureType.has_dict : FeatureType → Bool
  | .bbox => false
  | .timestamp => false
  | _ => true

/-- Modelled from the spec: FeatureType.is_time_dependent of the missing
feature_types.py.  Section 3 tags the five per-time mapping namespaces as
time-dependent; the spec treats the timestamp singleton separately from the
time-dependent namespaces (section 4.3, timestamp consolidation). -/
def FeatureType.is_time_dependent : FeatureType → Bool
  | .data => true
  | .mask => true
  | .scalar => true
  | .label => true
  | .vector => true
  | _ => false

/-- Modelled from the spec: FeatureType.ndim of the missing feature_types.py.
The expected array rank per namespace (section 3): rank 4 for per-time raster
data and masks, rank 2 for per-time scalars and labels, rank reduced by one
for the timeless counterparts, and 0 (meaning no fixed rank) for the vector,
metadata and singleton namespaces. -/
def FeatureType.ndim : FeatureType → Nat
  | .data => 4
  | .mask => 4
  | .scalar => 2
  | .label => 2
  | .data_timeless => 3
  | .mask_timeless => 3
  | .scalar_timeless => 1
  | .label_timeless => 1
  | _ => 0

/-- Modelled from the spec: FeatureType.contains_ndarrays of the missing
feature_types.py.  The array namespaces are exactly those with a fixed
expected rank. -/
def FeatureType.contains_ndarrays (ft : FeatureType) : Bool :=
  ft.ndim != 0

/-- A numpy ndarray: its shape and its row-major flattened buffer of samples
(numeric samples are modelled as integers). -/
structure NdArray where
  shape : List Nat
  buf : List Int
deriving DecidableEq, Repr

/-- A value stored under a feature name inside a namespace mapping: a numpy
array, a Python list (for vector features; the geometry elements are opaque
and coded by naturals), or an opaque pickleable object coded by a natural. -/
inductive Value where
  | array (a : NdArray)
  | vlist (l : List Nat)
  | obj (o : Nat)
deriving DecidableEq, Repr

/-- The contents of a feature dictionary: an insertion-ordered association
list from feature name to value, exactly as a Python dict. -/
abbrev FDict : Type := List (String × Value)

/-- A bounding box: four numeric bounds and a coordinate reference system
identifier (spec section 3). -/
structure BBox where
  min_x : Int
  min_y : Int
  max_x : Int
  max_y : Int
  crs : Nat
deriving DecidableEq, Repr

/-- A Python value assignable to an EOPatch attribute: None, a plain dict, a
_FeatureDict instance (carrying the feature type it validates for), a list of
datetimes, a bounding box, or some other opaque object. -/
inductive PyVal where
  | pynone
  | pydict (d : FDict)
  | pyfdict (ft : FeatureType) (d : FDict)
  | pylist (l : List Nat)
  | pybbox (b : BBox)
  | pyother (o : Nat)
deriving DecidableEq, Repr

/-- Python truthiness of an attribute value: None, empty dicts and empty lists
are falsy; bounding boxes and opaque objects are truthy. -/
def PyVal.truthy : PyVal → Bool
  | .pynone => false
  | .pydict d => !d.isEmpty
  | .pyfdict _ d => !d.isEmpty
  | .pylist l => !l.isEmpty
  | .pybbox _ => true
  | .pyother _ => true

/-- The errors raised by the embedded code.  Each constructor corresponds to
one raise site of the source. -/
inductive EOError where
  | shapeErr (ft : FeatureType) (ndim : Nat)
  | typeErr (ft : FeatureType)
  | mergeConflict (ft : FeatureType) (name : String)
  | singletonConflict (ft : FeatureType)
  | concatShapeErr
  | concatTypeErr
  | indexErr
  | namingCollision (ft : FeatureType) (n1 n2 : String)
  | timestampMismatch
  | pyTypeError
deriving DecidableEq, Repr

instance {e a : Type} [DecidableEq e] [DecidableEq a] : DecidableEq (Except e a) := fun x y =>
  match x, y with
  | .ok v, .ok w =>
    if h : v = w then isTrue (by rw [h]) else isFalse (by intro hc; cases hc; exact h rfl)
  | .error v, .error w =>
    if h : v = w then isTrue (by rw [h]) else isFalse (by intro hc; cases hc; exact h rfl)
  | .ok _, .error _ => isFalse (by intro hc; cases hc)
  | .error _, .ok _ => isFalse (by intro hc; cases hc)

/-- Keys of a feature dictionary, in insertion order. -/
def fdKeys (d : FDict) : List String := d.map Prod.fst

/-- Python dict assignment d[k] = v: update in place when the key is present
(keeping its position), append otherwise. -/
def fdInsert (d : FDict) (k : String) (v : Value) : FDict :=
  if (d.lookup k).isSome then
    d.map (fun kv => if kv.fst = k then (k, v) else kv)
  else
    d ++ [(k, v)]

/-- Whether a value conforms to the rank rule of a namespace: when the
namespace has a fixed expected rank, the value must be an ndarray of exactly
that many dimensions (_FeatureDict.__setitem__ of eodata.py). -/
def validEntry (ft : FeatureType) (v : Value) : Bool :=
  if ft.ndim = 0 then true
  else match v with
    | .array a => a.shape.length = ft.ndim
    | _ => false

/-- _FeatureDict.__setitem__ of eodata.py: before storing, check that the
value is an ndarray of the namespace's expected rank (when one is fixed);
raise the shape error otherwise. -/
def fdSetItem (ft : FeatureType) (d : FDict) (k : String) (v : Value) :
    Except EOError FDict :=
  if ft.ndim ≠ 0 ∧ validEntry ft v = false then
    .error (.shapeErr ft ft.ndim)
  else
    .ok (fdInsert d k v)

/-- _FeatureDict.__init__ of eodata.py: wrap a raw mapping by re-inserting
every entry through the validating __setitem__, so the rank check is applied
retroactively to every existing entry. -/
def fdWrap (ft : FeatureType) (raw : FDict) : Except EOError FDict :=
  raw.foldlM (fun acc kv => fdSetItem ft acc kv.fst kv.snd) ([] : FDict)

/-- Modelled from the spec: deep_eq of the missing utilities.py, restricted to
feature values.  Deep structural equality: array-wise element equality for
arrays, element-wise equality for lists, exact equality for opaque objects
(spec section 4.3, Equality). -/
def deep_eq (v1 v2 : Value) : Bool := v1 == v2

/-- Modelled from the spec: deep_eq of the missing utilities.py on feature
dictionaries.  Two mappings are deeply equal when they have the same key set
and deeply equal values; insertion order is irrelevant (Python dict
equality). -/
def fdictDeepEq (d1 d2 : FDict) : Bool :=
  d1.length == d2.length &&
    d1.all (fun kv =>
      match d2.lookup kv.fst with
      | some v2 => deep_eq kv.snd v2
      | none => false)

/-- Modelled from the spec: deep_eq of the missing utilities.py on attribute
values. -/
def pyDeepEq : PyVal → PyVal → Bool
  | .pynone, .pynone => true
  | .pydict d1, .pydict d2 => fdictDeepEq d1 d2
  | .pydict d1, .pyfdict _ d2 => fdictDeepEq d1 d2
  | .pyfdict _ d1, .pydict d2 => fdictDeepEq d1 d2
  | .pyfdict _ d1, .pyfdict _ d2 => fdictDeepEq d1 d2
  | .pylist l1, .pylist l2 => l1 == l2
  | .pybbox b1, .pybbox b2 => b1 == b2
  | .pyother o1, .pyother o2 => o1 == o2
  | _, _ => false

/-- The EOPatch aggregate (eodata.py): one feature dictionary per mapping
namespace, the bbox attribute (which holds whatever object was assigned,
None by default), and the timestamp list. -/
structure EOPatch where
  data : FDict
  mask : FDict
  scalar : FDict
  label : FDict
  vector : FDict
  data_timeless : FDict
  mask_timeless : FDict
  scalar_timeless : FDict
  label_timeless : FDict
  vector_timeless : FDict
  meta_info : FDict
  bbox : PyVal
  timestamp : List Nat
deriving DecidableEq, Repr

/-- The feature dictionary of a mapping namespace (empty for the two singleton
namespaces, which hold no mapping). -/
def EOPatch.getDict (e : EOPatch) : FeatureType → FDict
  | .data => e.data
  | .mask => e.mask
  | .scalar => e.scalar
  | .label => e.label
  | .vector => e.vector
  | .data_timeless => e.data_timeless
  | .mask_timeless => e.mask_timeless
  | .scalar_timeless => e.scalar_timeless
  | .label_timeless => e.label_timeless
  | .vector_timeless => e.vector_timeless
  | .meta_info => e.meta_info
  | .bbox => []
  | .timestamp => []

/-- Replace the feature dictionary of a mapping namespace (identity for the
two singleton namespaces). -/
def EOPatch.setDict (e : EOPatch) (ft : FeatureType) (d : FDict) : EOPatch :=
  match ft with
  | .data => { e with data := d }
  | .mask => { e with mask := d }
  | .scalar => { e with scalar := d }
  | .label => { e with label := d }
  | .vector => { e with vector := d }
  | .data_timeless => { e with data_timeless := d }
  | .mask_timeless => { e with mask_timeless := d }
  | .scalar_timeless => { e with scalar_timeless := d }
  | .label_timeless => { e with label_timeless := d }
  | .vector_timeless => { e with vector_timeless := d }
  | .meta_info => { e with meta_info := d }
  | .bbox => e
  | .timestamp => e

/-- EOPatch.__getitem__ of eodata.py: read the attribute of a namespace, as a
Python value. -/
def EOPatch.getItem (e : EOPatch) (ft : FeatureType) : PyVal :=
  match ft with
  | .bbox => e.bbox
  | .timestamp => .pylist e.timestamp
  | ft => .pyfdict ft (e.getDict ft)

/-- EOPatch.__setattr__ of eodata.py: a mapping namespace only accepts dict
values (a raw dict is wrapped into the validating _FeatureDict, an existing
_FeatureDict instance is stored as is), the timestamp attribute only accepts
lists, and the bbox attribute accepts any object.  A wrong container type
raises a TypeError before anything is stored. -/
def EOPatch.setattr (e : EOPatch) (ft : FeatureType) (v : PyVal) :
    Except EOError EOPatch :=
  if ft.has_dict then
    match v with
    | .pydict d => do
        let w ← fdWrap ft d
        .ok (e.setDict ft w)
    | .pyfdict _ d => .ok (e.setDict ft d)
    | _ => .error (.typeErr ft)
  else if ft = .timestamp then
    match v with
    | .pylist l => .ok { e with timestamp := l }
    | _ => .error (.typeErr ft)
  else
    .ok { e with bbox := v }

/-- EOPatch.__init__ of eodata.py: every missing mapping argument defaults to
an empty dict, the missing timestamp defaults to an empty list, and the
missing bbox defaults to None; every supplied raw mapping is wrapped into the
validating _FeatureDict, applying the rank check to each of its entries. -/
def EOPatch.init (data? mask? scalar? label? vector? : Option FDict)
    (data_timeless? mask_timeless? scalar_timeless? label_timeless?
      vector_timeless? meta_info? : Option FDict)
    (bbox? : PyVal) (timestamp? : Option (List Nat)) : Except EOError EOPatch := do
  let d ← fdWrap .data (data?.getD [])
  let m ← fdWrap .mask (mask?.getD [])
  let s ← fdWrap .scalar (scalar?.getD [])
  let l ← fdWrap .label (label?.getD [])
  let v ← fdWrap .vector (vector?.getD [])
  let dt ← fdWrap .data_timeless (data_timeless?.getD [])
  let mt ← fdWrap .mask_timeless (mask_timeless?.getD [])
  let st ← fdWrap .scalar_timeless (scalar_timeless?.getD [])
  let lt ← fdWrap .label_timeless (label_timeless?.getD [])
  let vt ← fdWrap .vector_timeless (vector_timeless?.getD [])
  let mi ← fdWrap .meta_info (meta_info?.getD [])
  .ok { data := d, mask := m, scalar := s, label := l, vector := v,
        data_timeless := dt, mask_timeless := mt, scalar_timeless := st,
        label_timeless := lt, vector_timeless := vt, meta_info := mi,
        bbox := bbox?, timestamp := timestamp?.getD [] }

/-- The EOPatch produced by the no-argument constructor EOPatch(). -/
def EOPatch.empty : EOPatch :=
  { data := [], mask := [], scalar := [], label := [], vector := [],
    data_timeless := [], mask_timeless := [], scalar_timeless := [],
    label_timeless := [], vector_timeless := [], meta_info := [],
    bbox := .pynone, timestamp := [] }

/-- EOPatch.concatenate_data of eodata.py: concatenate two values along the
first axis.  Python raises the ValueError about non-temporal dimensions when
the shapes beyond axis 0 differ; numpy itself rejects zero-dimensional
concatenation, and a non-array operand makes the shape access fail. -/
def EOPatch.concatenate_data (v1 v2 : Value) : Except EOError Value :=
  match v1, v2 with
  | .array a1, .array a2 =>
    if a1.shape.tail ≠ a2.shape.tail then .error .concatShapeErr
    else
      match a1.shape, a2.shape with
      | t1 :: r1, t2 :: _ => .ok (.array ⟨(t1 + t2) :: r1, a1.buf ++ a2.buf⟩)
      | _, _ => .error .concatTypeErr
  | _, _ => .error .concatTypeErr

/-- Python dict merge as in eodata.py line 376, eopatch_content = dict with
all entries of d1 (overridden by d2 where the key is shared) followed by the
entries of d2 whose keys are new. -/
def pyDictUnion (d1 d2 : FDict) : FDict :=
  d1.map (fun kv => (kv.fst, ((d2.lookup kv.fst).getD kv.snd))) ++
    d2.filter (fun kv => (d1.lookup kv.fst).isNone)

/-- The feature names present in both dictionaries, enumerated in d1's
insertion order (the Python source iterates over an unordered key-set
intersection; the per-key updates are independent, so the enumeration order
only determinizes which of several simultaneous conflicts is reported). -/
def commonEntries (d1 d2 : FDict) : FDict :=
  d1.filter (fun kv => (d2.lookup kv.fst).isSome)

/-- The loop body of EOPatch.concatenate for one feature name present in both
patches (eodata.py lines 378-386): concatenate along time when the namespace
is time-dependent and the timestamps do not match, otherwise require deep
equality, raising the merge conflict naming the namespace and feature. -/
def mergeStep (ft : FeatureType) (tsMatch : Bool) (d2 : FDict) (acc : FDict)
    (kv : String × Value) : Except EOError FDict := do
  let v2 := (d2.lookup kv.fst).getD kv.snd
  if ft.is_time_dependent && !tsMatch then
    let c ← EOPatch.concatenate_data kv.snd v2
    .ok (fdInsert acc kv.fst c)
  else if deep_eq kv.snd v2 then
    .ok acc
  else
    .error (.mergeConflict ft kv.fst)

/-- The per-namespace body of EOPatch.concatenate for a mapping namespace
(eodata.py lines 375-386): start from the Python dict merge, then run the
per-feature loop body over every feature name present in both patches. -/
def mergeDictFT (ft : FeatureType) (tsMatch : Bool) (d1 d2 : FDict) :
    Except EOError FDict :=
  (commonEntries d1 d2).foldlM (mergeStep ft tsMatch d2) (pyDictUnion d1 d2)

/-- The generic non-mapping branch of EOPatch.concatenate (eodata.py lines
390-396): the second value wins when the first is falsy or deeply equal to
it, the first wins when the second is falsy, and otherwise the merge conflict
for the namespace is raised. -/
def mergeSingleton (ft : FeatureType) (x1 x2 : PyVal) : Except EOError PyVal :=
  if !x1.truthy || pyDeepEq x1 x2 then .ok x2
  else if !x2.truthy then .ok x1
  else .error (.singletonConflict ft)

/-- EOPatch.concatenate of eodata.py: join two patches.  Timestamps match
when both are non-empty and deeply equal; every mapping namespace is merged
with mergeDictFT, the timestamp singleton is concatenated when both are
non-empty and different, the bbox singleton is merged with the generic
branch, and the collected contents are passed through EOPatch.__init__
(which re-wraps each mapping with the validating _FeatureDict). -/
def concTsExist (e1 e2 : EOPatch) : Bool :=
  !e1.timestamp.isEmpty && !e2.timestamp.isEmpty

def concTsMatch (e1 e2 : EOPatch) : Bool :=
  concTsExist e1 e2 && e1.timestamp == e2.timestamp

/-- The timestamp branch of EOPatch.concatenate (eodata.py lines 388-396):
both non-empty and different concatenates in input order, otherwise the
generic non-mapping branch applies. -/
def mergeTimestampVal (e1 e2 : EOPatch) : Except EOError (List Nat) := do
  if concTsExist e1 e2 && !concTsMatch e1 e2 then
    .ok (e1.timestamp ++ e2.timestamp)
  else
    match ← mergeSingleton .timestamp (.pylist e1.timestamp) (.pylist e2.timestamp) with
    | .pylist ts => .ok ts
    | _ => .error (.singletonConflict .timestamp)

def EOPatch.concatenate (e1 e2 : EOPatch) : Except EOError EOPatch := do
  let tsMatch := concTsMatch e1 e2
  let d ← mergeDictFT .data tsMatch e1.data e2.data
  let m ← mergeDictFT .mask tsMatch e1.mask e2.mask
  let s ← mergeDictFT .scalar tsMatch e1.scalar e2.scalar
  let l ← mergeDictFT .label tsMatch e1.label e2.label
  let v ← mergeDictFT .vector tsMatch e1.vector e2.vector
  let dt ← mergeDictFT .data_timeless tsMatch e1.data_timeless e2.data_timeless
  let mt ← mergeDictFT .mask_timeless tsMatch e1.mask_timeless e2.mask_timeless
  let st ← mergeDictFT .scalar_timeless tsMatch e1.scalar_timeless e2.scalar_timeless
  let lt ← mergeDictFT .label_timeless tsMatch e1.label_timeless e2.label_timeless
  let vt ← mergeDictFT .vector_timeless tsMatch e1.vector_timeless e2.vector_timeless
  let mi ← mergeDictFT .meta_info tsMatch e1.meta_info e2.meta_info
  let bb ← mergeSingleton .bbox e1.bbox e2.bbox
  let ts ← mergeTimestampVal e1 e2
  EOPatch.init (some d) (some m) (some s) (some l) (some v) (some dt) (some mt)
    (some st) (some lt) (some vt) (some mi) bb (some ts)

/-- EOPatch.__eq__ of eodata.py: two patches are equal when the attributes of
every namespace are deeply equal. -/
def EOPatch.deepEqB (e1 e2 : EOPatch) : Bool :=
  allFeatureTypes.all (fun ft => pyDeepEq (e1.getItem ft) (e2.getItem ft))

/-- A well-formed (Python-reachable) patch: every feature dictionary has
pairwise distinct keys and rank-conforming entries for its namespace, and the
bbox attribute holds None or a bounding box, as the spec's data model
requires. -/
def EOPatch.wfb (e : EOPatch) : Bool :=
  (allFeatureTypes.all (fun ft =>
    (fdKeys (e.getDict ft)).Nodup &&
      (e.getDict ft).all (fun kv => validEntry ft kv.snd))) &&
  (match e.bbox with
   | .pynone => true
   | .pybbox _ => true
   | _ => false)

/-- Numpy fancy indexing value[idxs, ...] along axis 0 for an ndarray, and the
Python list comprehension [value[i] for i in idxs] for a list, as used by
EOPatch.consolidate_timestamps; values of any other kind are left untouched.
An index at or beyond the leading length raises an IndexError. -/
def selectIdxs (idxs : List Nat) (v : Value) : Except EOError Value :=
  match v with
  | .array a =>
    match a.shape with
    | t :: r =>
      if idxs.all (fun i => i < t) then
        .ok (.array ⟨idxs.length :: r,
          (idxs.map (fun i => (a.buf.drop (i * r.prod)).take r.prod)).flatten⟩)
      else .error .indexErr
    | [] => .error .indexErr
  | .vlist l =>
    if idxs.all (fun i => i < l.length) then
      .ok (.vlist (idxs.map (fun i => l.getD i 0)))
    else .error .indexErr
  | v => .ok v

/-- The indices the source keeps: those whose position is not the first
occurrence of a removed date (eodata.py lines 635-637). -/
def goodIdxsOf (ts removeFromPatch : List Nat) : List Nat :=
  (List.range ts.length).filter
    (fun i => !(removeFromPatch.map (fun t => ts.indexOf t)).contains i)

/-- One entry update of EOPatch.consolidate_timestamps: re-index the value by
the kept indices and store it back through the validating __setitem__. -/
def consolidateStep (goodIdxs : List Nat) (ft : FeatureType) (acc : FDict)
    (kv : String × Value) : Except EOError FDict := do
  let v2 ← selectIdxs goodIdxs kv.snd
  fdSetItem ft acc kv.fst v2

/-- The update of one time-dependent feature dictionary performed by
EOPatch.consolidate_timestamps. -/
def consolidateDict (goodIdxs : List Nat) (ft : FeatureType) (d : FDict) :
    Except EOError FDict :=
  d.foldlM (consolidateStep goodIdxs ft) d

/-- EOPatch.consolidate_timestamps of eodata.py: compute the set of dates
present in the patch but absent from the keep list, drop the first-occurrence
index of each such date from every entry of every time-dependent namespace,
replace the timestamp list by the kept entries in order, and return the
removed set (determinized here as a first-occurrence-ordered list). -/
def EOPatch.consolidate_timestamps (e : EOPatch) (keep : List Nat) :
    Except EOError (EOPatch × List Nat) := do
  let removeFromPatch := e.timestamp.dedup.filter (fun t => !keep.contains t)
  let goodIdxs := goodIdxsOf e.timestamp removeFromPatch
  let goodTimestamps :=
    (e.timestamp.enum.filter
      (fun p => !(removeFromPatch.map (fun t => e.timestamp.indexOf t)).contains p.fst)).map
      Prod.snd
  let e1 ← (allFeatureTypes.filter (fun ft => ft.is_time_dependent)).foldlM
    (fun ep ft => do
      let d ← consolidateDict goodIdxs ft (ep.getDict ft)
      .ok (ep.setDict ft d))
    e
  .ok ({ e1 with timestamp := goodTimestamps }, removeFromPatch)

/-- The two on-disk formats of eodata.py. -/
inductive FileFormat where
  | pickle
  | npy
deriving DecidableEq, Repr

/-- One write performed by EOPatch.save, with the filesystem abstracted: a
single serialized-object file for a namespace, or one file per feature name
inside the namespace directory. -/
inductive SaveOp where
  | pickleFile (ft : FeatureType)
  | npyDir (ft : FeatureType) (files : List String)
deriving DecidableEq, Repr

/-- Modelled from the spec: Python str.lower applied to a feature name
(the source calls feature_name.lower()); ASCII lowercase, structurally
recursive so that concrete saves evaluate. -/
def charLower (c : Char) : Char :=
  if 'A' ≤ c ∧ c ≤ 'Z' then Char.ofNat (c.toNat + 32) else c

/-- Python str.lower on a whole feature name. -/
def strLower (s : String) : String := ⟨s.data.map charLower⟩

/-- The casing-collision loop of EOPatch._save_npy_feature_type (eodata.py
lines 471-479): walk the feature names in insertion order keeping the set of
lowercased names seen so far, and raise as soon as a name lowercases to an
already seen one. -/
def caseCollisionLoop (ft : FeatureType) : List String → List String → Except EOError Unit
  | [], _ => .ok ()
  | n :: rest, seen =>
    if seen.contains (strLower n) then .error (.namingCollision ft n (strLower n))
    else caseCollisionLoop ft rest (strLower n :: seen)

/-- The per-namespace body of EOPatch.save (eodata.py lines 453-468) with the
filesystem abstracted: an empty namespace is skipped; the pickle format, and
every namespace not holding fixed-rank ndarrays, writes one serialized-object
file without any name check; the npy format for an array namespace first
rejects casing collisions among the feature names and then writes one file
per feature. -/
def saveFT (e : EOPatch) (fmt : FileFormat) (ft : FeatureType) :
    Except EOError (Option SaveOp) :=
  if (e.getItem ft).truthy = false then .ok none
  else if fmt = .pickle || !ft.contains_ndarrays then .ok (some (.pickleFile ft))
  else do
    caseCollisionLoop ft (fdKeys (e.getDict ft)) []
    .ok (some (.npyDir ft (fdKeys (e.getDict ft))))

/-- One iteration of the save loop: run the per-namespace body and record the
write it performed, if any. -/
def saveStep (e : EOPatch) (fmt : FileFormat) (acc : List SaveOp) (ft : FeatureType) :
    Except EOError (List SaveOp) := do
  match ← saveFT e fmt ft with
  | some op => .ok (acc ++ [op])
  | none => .ok acc

/-- EOPatch.save of eodata.py with the filesystem abstracted into the list of
writes performed: the namespaces are processed in registry order and the
first raised error aborts the save. -/
def EOPatch.save (e : EOPatch) (fmt : FileFormat) : Except EOError (List SaveOp) :=
  allFeatureTypes.foldlM (saveStep e fmt) []

/-- SentinelHubInputBase.check_timestamp_difference of processing_api.py:
raise when the two timestamp lists differ in length, or when any aligned pair
of elements differs. -/
def check_timestamp_difference (ts1 ts2 : List Nat) : Except EOError Unit :=
  if ts1.length ≠ ts2.length then .error .timestampMismatch
  else if (ts1.zip ts2).any (fun p => p.fst ≠ p.snd) then .error .timestampMismatch
  else .ok ()

/-- The timestamp gate of SentinelHubInputBase.execute (processing_api.py
lines 72-81), with the download client and payload construction abstracted:
given the timestamp list of the (possibly pre-existing) patch and the newly
resolved timestamp list (None when no time interval was supplied), either
raise — a mismatch against a non-empty existing timestamp, or the Python
TypeError from taking len(None) — or return the timestamp list the patch
carries into the download-and-extract stage. -/
def executeTimestampGate (eopatchTs : List Nat) (resolved : Option (List Nat)) :
    Except EOError (List Nat) :=
  if !eopatchTs.isEmpty then
    match resolved with
    | some r => do
        check_timestamp_difference r eopatchTs
        .ok eopatchTs
    | none => .error .pyTypeError
  else
    match resolved with
    | some r => .ok (if !r.isEmpty then r else eopatchTs)
    | none => .ok eopatchTs

/-- A heap of numpy array buffers, used to model Python reference semantics
for EOPatch.__copy__ and EOPatch.__deepcopy__: feature values are addresses
into this store, and an in-place array mutation is a store update. -/
abbrev RefStore : Type := List NdArray

/-- A feature dictionary in the reference model: feature name to buffer
address. -/
abbrev RDict : Type := List (String × Nat)

/-- The EOPatch aggregate in the reference model: the mapping namespaces hold
addresses of array buffers; the bbox and timestamp singletons are immutable
values here because the copy claims only concern array buffers. -/
structure RefPatch where
  rdata : RDict
  rmask : RDict
  rscalar : RDict
  rlabel : RDict
  rvector : RDict
  rdata_timeless : RDict
  rmask_timeless : RDict
  rscalar_timeless : RDict
  rlabel_timeless : RDict
  rvector_timeless : RDict
  rmeta_info : RDict
  rbbox : PyVal
  rtimestamp : List Nat
deriving DecidableEq, Repr

/-- The feature dictionary of a mapping namespace in the reference model. -/
def RefPatch.getRDict (p : RefPatch) : FeatureType → RDict
  | .data => p.rdata
  | .mask => p.rmask
  | .scalar => p.rscalar
  | .label => p.rlabel
  | .vector => p.rvector
  | .data_timeless => p.rdata_timeless
  | .mask_timeless => p.rmask_timeless
  | .scalar_timeless => p.rscalar_timeless
  | .label_timeless => p.rlabel_timeless
  | .vector_timeless => p.rvector_timeless
  | .meta_info => p.rmeta_info
  | .bbox => []
  | .timestamp => []

/-- Every buffer address reachable from a patch in the reference model. -/
def RefPatch.addrs (p : RefPatch) : List Nat :=
  (allFeatureTypes.map (fun ft => (p.getRDict ft).map Prod.snd)).flatten

/-- EOPatch.__copy__ of eodata.py with the selection argument left at None:
each namespace dictionary is copied into the new patch as a fresh dict object
holding the same value references, so the new patch holds exactly the same
buffer addresses. -/
def RefPatch.shallowCopy (p : RefPatch) : RefPatch :=
  { rdata := p.rdata, rmask := p.rmask, rscalar := p.rscalar,
    rlabel := p.rlabel, rvector := p.rvector,
    rdata_timeless := p.rdata_timeless, rmask_timeless := p.rmask_timeless,
    rscalar_timeless := p.rscalar_timeless, rlabel_timeless := p.rlabel_timeless,
    rvector_timeless := p.rvector_timeless, rmeta_info := p.rmeta_info,
    rbbox := p.rbbox, rtimestamp := p.rtimestamp }

/-- The deepcopy of one namespace dictionary: every entry gets a freshly
allocated buffer holding a copy of the entry's current contents. -/
def deepCopyDict (s : RefStore) : RDict → RDict × RefStore
  | [] => ([], s)
  | (n, a) :: rest =>
    let s1 := s ++ [s.getD a ⟨[], []⟩]
    let res := deepCopyDict s1 rest
    ((n, s.length) :: res.1, res.2)

/-- EOPatch.__deepcopy__ of eodata.py with the selection argument left at
None: first the shallow copy, then every namespace value is deep-duplicated,
allocating a fresh buffer for every array entry.  (Python's deepcopy memoizes
shared sub-objects; the patches considered here hold each buffer once, so the
memo is irrelevant to the claims.) -/
def RefPatch.deepCopy (p : RefPatch) (s : RefStore) : RefPatch × RefStore :=
  let q := p.shallowCopy
  let r1 := deepCopyDict s q.rdata
  let r2 := deepCopyDict r1.2 q.rmask
  let r3 := deepCopyDict r2.2 q.rscalar
  let r4 := deepCopyDict r3.2 q.rlabel
  let r5 := deepCopyDict r4.2 q.rvector
  let r6 := deepCopyDict r5.2 q.rdata_timeless
  let r7 := deepCopyDict r6.2 q.rmask_timeless
  let r8 := deepCopyDict r7.2 q.rscalar_timeless
  let r9 := deepCopyDict r8.2 q.rlabel_timeless
  let r10 := deepCopyDict r9.2 q.rvector_timeless
  let r11 := deepCopyDict r10.2 q.rmeta_info
  ({ rdata := r1.1, rmask := r2.1, rscalar := r3.1, rlabel := r4.1,
     rvector := r5.1, rdata_timeless := r6.1, rmask_timeless := r7.1,
     rscalar_timeless := r8.1, rlabel_timeless := r9.1,
     rvector_timeless := r10.1, rmeta_info := r11.1,
     rbbox := q.rbbox, rtimestamp := q.rtimestamp }, r11.2)

/-- An in-place mutation of the array buffer at an address. -/
def storeWrite (s : RefStore) (addr : Nat) (a : NdArray) : RefStore :=
  s.set addr a

/-- Reading the array buffer at an address. -/
def readArr (s : RefStore) (addr : Nat) : Option NdArray :=
  s.get? addr

/-- A patch is well formed over a store when every reachable address is a
live buffer of the store. -/
def RefPatch.wfStore (p : RefPatch) (s : RefStore) : Bool :=
  p.addrs.all (fun a => a < s.length)

/-- Whether a value's leading axis (array first dimension, or list length)
has the given length; non-indexed opaque values are unconstrained.  Used to
state the temporal-alignment hypothesis of the consolidation claim. -/
def leadingAligned (n : Nat) (v : Value) : Bool :=
  match v with
  | .array a =>
    match a.shape with
    | t :: _ => t = n
    | [] => false
  | .vlist l => l.length = n
  | .obj _ => true

/-- The intermediate store of RefPatch.deepCopy after copying the data
namespace (the stages below follow in the namespace iteration order). -/
def dcS1 (p : RefPatch) (s : RefStore) : RefStore := (deepCopyDict s p.rdata).2

/-- Store after the mask namespace. -/
def dcS2 (p : RefPatch) (s : RefStore) : RefStore := (deepCopyDict (dcS1 p s) p.rmask).2

/-- Store after the scalar namespace. -/
def dcS3 (p : RefPatch) (s : RefStore) : RefStore := (deepCopyDict (dcS2 p s) p.rscalar).2

/-- Store after the label namespace. -/
def dcS4 (p : RefPatch) (s : RefStore) : RefStore := (deepCopyDict (dcS3 p s) p.rlabel).2

/-- Store after the vector namespace. -/
def dcS5 (p : RefPatch) (s : RefStore) : RefStore := (deepCopyDict (dcS4 p s) p.rvector).2

/-- Store after the data_timeless namespace. -/
def dcS6 (p : RefPatch) (s : RefStore) : RefStore := (deepCopyDict (dcS5 p s) p.rdata_timeless).2

/-- Store after the mask_timeless namespace. -/
def dcS7 (p : RefPatch) (s : RefStore) : RefStore := (deepCopyDict (dcS6 p s) p.rmask_timeless).2

/-- Store after the scalar_timeless namespace. -/
def dcS8 (p : RefPatch) (s : RefStore) : RefStore := (deepCopyDict (dcS7 p s) p.rscalar_timeless).2

/-- Store after the label_timeless namespace. -/
def dcS9 (p : RefPatch) (s : RefStore) : RefStore := (deepCopyDict (dcS8 p s) p.rlabel_timeless).2

/-- Store after the vector_timeless namespace. -/
def dcS10 (p : RefPatch) (s : RefStore) : RefStore := (deepCopyDict (dcS9 p s) p.rvector_timeless).2

/-- Store after the meta_info namespace: the final store of deepCopy. -/
def dcS11 (p : RefPatch) (s : RefStore) : RefStore := (deepCopyDict (dcS10 p s) p.rmeta_info).2

/-- A one-feature patch used as the concrete instance of the copy-aliasing
theorem: a single data feature stored at buffer address 0. -/
def c6pW : RefPatch :=
  { rdata := [("A", 0)], rmask := [], rscalar := [], rlabel := [], rvector := [],
    rdata_timeless := [], rmask_timeless := [], rscalar_timeless := [],
    rlabel_timeless := [], rvector_timeless := [], rmeta_info := [],
    rbbox := .pynone, rtimestamp := [] }

/-- A two-buffer store for the copy-aliasing instance; only address 0 is
reachable from the patch above. -/
def c6sW : RefStore := [⟨[2], [5, 6]⟩, ⟨[1], [7]⟩]

/-! Helper lemmas about Except and association lists, shared by the claim
proofs below. -/

theorem exceptBind_ok {ε α β : Type} (x : Except ε α) (f : α → Except ε β) (b : β) :
    (x >>= f = Except.ok b) ↔ ∃ a, x = Except.ok a ∧ f a = Except.ok b := by
  cases x <;> simp [Bind.bind, Except.bind]

theorem alist_lookup_cons_self {β : Type} (k : String) (v : β) (l : List (String × β)) :
    ((k, v) :: l).lookup k = some v := by
  simp [List.lookup]

theorem alist_lookup_cons_ne {β : Type} {k k2 : String} (h : k2 ≠ k) (v : β)
    (l : List (String × β)) : ((k2, v) :: l).lookup k = l.lookup k := by
  simp [List.lookup, beq_eq_false_iff_ne.mpr (Ne.symm h)]

theorem alist_lookup_none_iff {β : Type} (l : List (String × β)) (k : String) :
    l.lookup k = none ↔ k ∉ l.map Prod.fst := by
  induction l with
  | nil => simp
  | cons kv rest ih =>
    obtain ⟨k2, v2⟩ := kv
    by_cases h : k2 = k
    · subst h
      simp [alist_lookup_cons_self]
    · rw [alist_lookup_cons_ne h, List.map_cons]
      simp only [ih, List.mem_cons]
      constructor
      · intro hn
        rintro (rfl | hm)
        · exact h rfl
        · exact hn hm
      · intro hn hm
        exact hn (Or.inr hm)

theorem alist_lookup_some_mem {β : Type} {l : List (String × β)} {k : String} {v : β}
    (h : l.lookup k = some v) : (k, v) ∈ l := by
  induction l with
  | nil => simp [List.lookup] at h
  | cons kv rest ih =>
    obtain ⟨k2, v2⟩ := kv
    by_cases hk : k2 = k
    · subst hk
      rw [alist_lookup_cons_self] at h
      rw [show v2 = v from Option.some.inj h]
      exact List.mem_cons_self _ _
    · rw [alist_lookup_cons_ne hk] at h
      exact List.mem_cons_of_mem _ (ih h)

theorem alist_mem_lookup {β : Type} {l : List (String × β)} {k : String} {v : β}
    (hnd : (l.map Prod.fst).Nodup) (hm : (k, v) ∈ l) : l.lookup k = some v := by
  induction l with
  | nil => simp at hm
  | cons kv rest ih =>
    obtain ⟨k2, v2⟩ := kv
    simp only [List.map_cons, List.nodup_cons] at hnd
    rcases List.mem_cons.mp hm with heq | hmem
    · obtain ⟨hk, hv⟩ := Prod.mk.injEq .. ▸ heq.symm
      subst hk
      subst hv
      exact alist_lookup_cons_self _ _ _
    · have hk : k2 ≠ k := by
        intro hkk
        subst hkk
        exact hnd.1 (List.mem_map.mpr ⟨(k2, v), hmem, rfl⟩)
      rw [alist_lookup_cons_ne hk]
      exact ih hnd.2 hmem

theorem alist_lookup_append_left {β : Type} {l1 : List (String × β)} (l2 : List (String × β))
    {k : String} {v : β} (h : l1.lookup k = some v) : (l1 ++ l2).lookup k = some v := by
  induction l1 with
  | nil => simp [List.lookup] at h
  | cons kv rest ih =>
    obtain ⟨k2, v2⟩ := kv
    by_cases hk : k2 = k
    · subst hk
      rw [alist_lookup_cons_self] at h
      rw [List.cons_append, alist_lookup_cons_self]
      exact h
    · rw [alist_lookup_cons_ne hk] at h
      rw [List.cons_append, alist_lookup_cons_ne hk]
      exact ih h

theorem alist_lookup_append_right {β : Type} {l1 : List (String × β)} (l2 : List (String × β))
    {k : String} (h : l1.lookup k = none) : (l1 ++ l2).lookup k = l2.lookup k := by
  induction l1 with
  | nil => simp
  | cons kv rest ih =>
    obtain ⟨k2, v2⟩ := kv
    by_cases hk : k2 = k
    · subst hk
      rw [alist_lookup_cons_self] at h
      exact absurd h (by simp)
    · rw [alist_lookup_cons_ne hk] at h
      rw [List.cons_append, alist_lookup_cons_ne hk]
      exact ih h

theorem alist_map_update_lookup_self {d : FDict} {k : String} {v : Value}
    (h : (d.lookup k).isSome) :
    (d.map (fun kv => if kv.fst = k then (k, v) else kv)).lookup k = some v := by
  induction d with
  | nil => simp [List.lookup] at h
  | cons kv2 rest ih =>
    obtain ⟨k2, v2⟩ := kv2
    by_cases hk : k2 = k
    · subst hk
      simp only [List.map_cons, if_pos rfl]
      exact alist_lookup_cons_self _ _ _
    · rw [alist_lookup_cons_ne hk] at h
      simp only [List.map_cons, if_neg hk]
      rw [alist_lookup_cons_ne hk]
      exact ih h

theorem alist_map_update_lookup_ne {d : FDict} {k k3 : String} {v : Value}
    (h : k3 ≠ k) :
    (d.map (fun kv => if kv.fst = k then (k, v) else kv)).lookup k3 = d.lookup k3 := by
  induction d with
  | nil => simp
  | cons kv2 rest ih =>
    obtain ⟨k2, v2⟩ := kv2
    simp only [List.map_cons]
    by_cases hk : k2 = k
    · subst hk
      rw [if_pos rfl]
      rw [alist_lookup_cons_ne (Ne.symm h), alist_lookup_cons_ne (Ne.symm h)]
      exact ih
    · rw [if_neg hk]
      by_cases hk3 : k2 = k3
      · subst hk3
        rw [alist_lookup_cons_self, alist_lookup_cons_self]
      · rw [alist_lookup_cons_ne hk3, alist_lookup_cons_ne hk3]
        exact ih

theorem alist_map_update_keys (d : FDict) (k : String) (v : Value) :
    (d.map (fun kv => if kv.fst = k then (k, v) else kv)).map Prod.fst =
      d.map Prod.fst := by
  induction d with
  | nil => simp
  | cons kv2 rest ih =>
    obtain ⟨k2, v2⟩ := kv2
    simp only [List.map_cons]
    by_cases hk : k2 = k
    · subst hk
      rw [if_pos rfl]
      rw [ih]
    · rw [if_neg hk]
      rw [ih]

theorem fdInsert_lookup_self (d : FDict) (k : String) (v : Value) :
    (fdInsert d k v).lookup k = some v := by
  unfold fdInsert
  by_cases h : (d.lookup k).isSome
  · rw [if_pos h]
    exact alist_map_update_lookup_self h
  · rw [if_neg h]
    rw [alist_lookup_append_right _ (Option.not_isSome_iff_eq_none.mp h)]
    exact alist_lookup_cons_self _ _ _

theorem fdInsert_lookup_ne (d : FDict) {k k3 : String} (v : Value) (h : k3 ≠ k) :
    (fdInsert d k v).lookup k3 = d.lookup k3 := by
  unfold fdInsert
  by_cases hp : (d.lookup k).isSome
  · rw [if_pos hp]
    exact alist_map_update_lookup_ne h
  · rw [if_neg hp]
    cases hl : d.lookup k3 with
    | some w => exact alist_lookup_append_left _ hl
    | none =>
      rw [alist_lookup_append_right _ hl, alist_lookup_cons_ne (Ne.symm h)]
      simp [List.lookup]

theorem fdInsert_keys_present {d : FDict} {k : String} (v : Value)
    (h : (d.lookup k).isSome) : fdKeys (fdInsert d k v) = fdKeys d := by
  unfold fdInsert fdKeys
  rw [if_pos h]
  exact alist_map_update_keys d k v

theorem fdInsert_keys_absent {d : FDict} {k : String} (v : Value)
    (h : d.lookup k = none) : fdKeys (fdInsert d k v) = fdKeys d ++ [k] := by
  unfold fdInsert fdKeys
  rw [if_neg (by simp [h])]
  simp

theorem fdSetItem_ok_of_valid (ft : FeatureType) (d : FDict) (k : String) {v : Value}
    (hv : validEntry ft v = true) : fdSetItem ft d k v = .ok (fdInsert d k v) := by
  unfold fdSetItem
  rw [if_neg]
  intro hcon
  rw [hv] at hcon
  exact absurd hcon.2 (by simp)

theorem fdSetItem_err_of_invalid (ft : FeatureType) (d : FDict) (k : String) {v : Value}
    (hn : ft.ndim ≠ 0) (hv : validEntry ft v = false) :
    fdSetItem ft d k v = .error (.shapeErr ft ft.ndim) := by
  unfold fdSetItem
  rw [if_pos ⟨hn, hv⟩]

theorem fdWrap_go_ok (ft : FeatureType) : ∀ (d acc : FDict),
    ((acc ++ d).map Prod.fst).Nodup →
    (∀ kv, kv ∈ d → validEntry ft kv.snd = true) →
    d.foldlM (fun acc kv => fdSetItem ft acc kv.fst kv.snd) acc = .ok (acc ++ d) := by
  intro d
  induction d with
  | nil =>
    intro acc _ _
    simp [List.foldlM_nil, pure, Except.pure]
  | cons kv rest ih =>
    intro acc hnd hval
    obtain ⟨k, v⟩ := kv
    rw [List.foldlM_cons]
    rw [fdSetItem_ok_of_valid ft acc k (hval (k, v) (List.mem_cons_self _ _))]
    have hknotin : k ∉ acc.map Prod.fst := by
      intro hmem
      rw [List.map_append] at hnd
      rcases List.disjoint_of_nodup_append hnd hmem (by simp) with h
      exact h
    have hnone : acc.lookup k = none := (alist_lookup_none_iff acc k).mpr hknotin
    have hins : fdInsert acc k v = acc ++ [(k, v)] := by
      unfold fdInsert
      rw [if_neg (by simp [hnone])]
    rw [show ((Except.ok (fdInsert acc k v) : Except EOError FDict) >>=
          (fun a => rest.foldlM (fun acc kv => fdSetItem ft acc kv.fst kv.snd) a)) =
        rest.foldlM (fun acc kv => fdSetItem ft acc kv.fst kv.snd) (fdInsert acc k v) from rfl]
    rw [hins]
    have hre : (acc ++ [(k, v)]) ++ rest = acc ++ (k, v) :: rest := by
      rw [List.append_assoc]
      rfl
    rw [show rest.foldlM (fun acc kv => fdSetItem ft acc kv.fst kv.snd) (acc ++ [(k, v)]) =
        .ok ((acc ++ [(k, v)]) ++ rest) from
      ih (acc ++ [(k, v)]) (by rw [hre]; exact hnd)
        (fun kv hm => hval kv (List.mem_cons_of_mem _ hm))]
    rw [hre]

theorem fdWrap_ok (ft : FeatureType) (d : FDict) (hnd : (fdKeys d).Nodup)
    (hval : ∀ kv, kv ∈ d → validEntry ft kv.snd = true) : fdWrap ft d = .ok d := by
  unfold fdWrap
  rw [show d.foldlM (fun acc kv => fdSetItem ft acc kv.fst kv.snd) ([] : FDict) =
      .ok (([] : FDict) ++ d) from fdWrap_go_ok ft d [] (by simpa [fdKeys] using hnd) hval]
  rw [List.nil_append]

theorem fdWrap_err (ft : FeatureType) (hn : ft.ndim ≠ 0) : ∀ (d acc : FDict),
    (∃ kv, kv ∈ d ∧ validEntry ft kv.snd = false) →
    d.foldlM (fun acc kv => fdSetItem ft acc kv.fst kv.snd) acc =
      .error (.shapeErr ft ft.ndim) := by
  intro d
  induction d with
  | nil =>
    intro acc h
    obtain ⟨kv, hm, _⟩ := h
    simp at hm
  | cons kv0 rest ih =>
    intro acc h
    obtain ⟨k0, v0⟩ := kv0
    rw [List.foldlM_cons]
    by_cases hv : validEntry ft v0 = true
    · rw [fdSetItem_ok_of_valid ft acc k0 hv]
      rw [show ((Except.ok (fdInsert acc k0 v0) : Except EOError FDict) >>=
            (fun a => rest.foldlM (fun acc kv => fdSetItem ft acc kv.fst kv.snd) a)) =
          rest.foldlM (fun acc kv => fdSetItem ft acc kv.fst kv.snd) (fdInsert acc k0 v0) from rfl]
      apply ih
      obtain ⟨kv, hm, hbad⟩ := h
      rcases List.mem_cons.mp hm with heq | hmem
      · rw [heq] at hbad
        rw [hbad] at hv
        exact absurd hv (by simp)
      · exact ⟨kv, hmem, hbad⟩
    · rw [fdSetItem_err_of_invalid ft acc k0 hn (Bool.not_eq_true _ ▸ hv)]
      rfl

theorem fdWrap_go_inv (ft : FeatureType) : ∀ (d acc d' : FDict),
    ((acc ++ d).map Prod.fst).Nodup →
    d.foldlM (fun acc kv => fdSetItem ft acc kv.fst kv.snd) acc = .ok d' →
    d' = acc ++ d := by
  intro d
  induction d with
  | nil =>
    intro acc d' _ h
    simp [List.foldlM_nil, pure, Except.pure] at h
    rw [← h, List.append_nil]
  | cons kv rest ih =>
    intro acc d' hnd h
    obtain ⟨k, v⟩ := kv
    rw [List.foldlM_cons] at h
    rw [exceptBind_ok] at h
    obtain ⟨acc1, hstep, hrest⟩ := h
    have hacc1 : acc1 = fdInsert acc k v := by
      unfold fdSetItem at hstep
      by_cases hcond : ft.ndim ≠ 0 ∧ validEntry ft v = false
      · rw [if_pos hcond] at hstep
        exact absurd hstep (by simp)
      · rw [if_neg hcond] at hstep
        exact (Except.ok.inj hstep).symm
    have hknotin : k ∉ acc.map Prod.fst := by
      intro hmem
      rw [List.map_append] at hnd
      exact List.disjoint_of_nodup_append hnd hmem (by simp)
    have hins : fdInsert acc k v = acc ++ [(k, v)] := by
      unfold fdInsert
      rw [if_neg (by simp [(alist_lookup_none_iff acc k).mpr hknotin])]
    have hre : (acc ++ [(k, v)]) ++ rest = acc ++ (k, v) :: rest := by
      rw [List.append_assoc]
      rfl
    rw [hacc1, hins] at hrest
    rw [ih (acc ++ [(k, v)]) d' (by rw [hre]; exact hnd) hrest, hre]

theorem fdWrap_inv {ft : FeatureType} {d d' : FDict} (hnd : (fdKeys d).Nodup)
    (h : fdWrap ft d = .ok d') : d' = d := by
  unfold fdWrap at h
  rw [fdWrap_go_inv ft d [] d' (by simpa [fdKeys] using hnd) h, List.nil_append]

theorem mergeStep_ok_cases {ft : FeatureType} {ts : Bool} {d2 acc : FDict}
    {kv : String × Value} {acc' : FDict}
    (h : mergeStep ft ts d2 acc kv = .ok acc') :
    ((ft.is_time_dependent && !ts) = true ∧
      ∃ c, EOPatch.concatenate_data kv.snd ((d2.lookup kv.fst).getD kv.snd) = .ok c ∧
        acc' = fdInsert acc kv.fst c) ∨
    ((ft.is_time_dependent && !ts) = false ∧ acc' = acc ∧
      deep_eq kv.snd ((d2.lookup kv.fst).getD kv.snd) = true) := by
  unfold mergeStep at h
  by_cases htd : (ft.is_time_dependent && !ts) = true
  · rw [if_pos htd] at h
    cases hc : EOPatch.concatenate_data kv.snd ((d2.lookup kv.fst).getD kv.snd) with
    | error e =>
      rw [hc] at h
      exact absurd h (by simp [Bind.bind, Except.bind])
    | ok c =>
      rw [hc] at h
      simp only [Bind.bind, Except.bind] at h
      exact Or.inl ⟨htd, c, rfl, (Except.ok.inj h).symm⟩
  · rw [if_neg htd] at h
    by_cases he : deep_eq kv.snd ((d2.lookup kv.fst).getD kv.snd) = true
    · rw [if_pos he] at h
      exact Or.inr ⟨Bool.not_eq_true _ ▸ htd, (Except.ok.inj h).symm, he⟩
    · rw [if_neg he] at h
      exact absurd h (by simp)

theorem mergeFold_preserve (ft : FeatureType) (ts : Bool) (d2 : FDict) :
    ∀ (l acc m : FDict) (k : String), k ∉ l.map Prod.fst →
    l.foldlM (mergeStep ft ts d2) acc = .ok m → m.lookup k = acc.lookup k := by
  intro l
  induction l with
  | nil =>
    intro acc m k _ h
    simp [List.foldlM_nil, pure, Except.pure] at h
    rw [h]
  | cons kv rest ih =>
    intro acc m k hk h
    rw [List.foldlM_cons, exceptBind_ok] at h
    obtain ⟨acc1, hstep, hrest⟩ := h
    have hne : k ≠ kv.fst := by
      intro hkk
      exact hk (by simp [hkk])
    have hk2 : k ∉ rest.map Prod.fst := fun hm => hk (by simp [hm])
    rw [ih acc1 m k hk2 hrest]
    rcases mergeStep_ok_cases hstep with ⟨_, c, _, hacc⟩ | ⟨_, hacc, _⟩
    · rw [hacc]
      exact fdInsert_lookup_ne acc _ hne
    · rw [hacc]

theorem mergeFold_keys (ft : FeatureType) (ts : Bool) (d2 : FDict) :
    ∀ (l acc m : FDict), (∀ k, k ∈ l.map Prod.fst → k ∈ acc.map Prod.fst) →
    l.foldlM (mergeStep ft ts d2) acc = .ok m → fdKeys m = fdKeys acc := by
  intro l
  induction l with
  | nil =>
    intro acc m _ h
    simp [List.foldlM_nil, pure, Except.pure] at h
    rw [h]
  | cons kv rest ih =>
    intro acc m hsub h
    rw [List.foldlM_cons, exceptBind_ok] at h
    obtain ⟨acc1, hstep, hrest⟩ := h
    rcases mergeStep_ok_cases hstep with ⟨_, c, _, hacc⟩ | ⟨_, hacc, _⟩
    · have hmem : kv.fst ∈ acc.map Prod.fst := hsub kv.fst (by simp)
      have hsome : (acc.lookup kv.fst).isSome := by
        cases hl : acc.lookup kv.fst with
        | none => exact absurd ((alist_lookup_none_iff acc kv.fst).mp hl) (by simp [hmem])
        | some w => rfl
      have hkeys : fdKeys acc1 = fdKeys acc := by
        rw [hacc]
        exact fdInsert_keys_present _ hsome
      rw [← hkeys]
      apply ih acc1 m _ hrest
      intro k hkm
      have : k ∈ acc.map Prod.fst := hsub k (by simp [hkm])
      rw [show acc1.map Prod.fst = fdKeys acc1 from rfl, hkeys]
      exact this
    · rw [hacc] at hrest
      exact ih acc m (fun k hkm => hsub k (by simp [hkm])) hrest

theorem mergeFold_mem_concat {ft : FeatureType} {ts : Bool} {d2 : FDict}
    (htd : (ft.is_time_dependent && !ts) = true) :
    ∀ (l acc m : FDict), (l.map Prod.fst).Nodup →
    l.foldlM (mergeStep ft ts d2) acc = .ok m →
    ∀ k v1, (k, v1) ∈ l →
    ∃ c, EOPatch.concatenate_data v1 ((d2.lookup k).getD v1) = .ok c ∧
      m.lookup k = some c := by
  intro l
  induction l with
  | nil =>
    intro acc m _ _ k v1 hm
    simp at hm
  | cons kv rest ih =>
    intro acc m hnd h k v1 hm
    rw [List.foldlM_cons, exceptBind_ok] at h
    obtain ⟨acc1, hstep, hrest⟩ := h
    simp only [List.map_cons, List.nodup_cons] at hnd
    rcases List.mem_cons.mp hm with heq | hmem
    · obtain ⟨hk, hv⟩ := Prod.mk.injEq .. ▸ heq.symm
      rcases mergeStep_ok_cases hstep with ⟨_, c, hc, hacc⟩ | ⟨htd2, _, _⟩
      · refine ⟨c, ?_, ?_⟩
        · rw [hk, hv] at hc
          exact hc
        · have hknotin : k ∉ rest.map Prod.fst := hk ▸ hnd.1
          rw [mergeFold_preserve ft ts d2 rest acc1 m k hknotin hrest, hacc, hk]
          exact fdInsert_lookup_self _ _ _
      · rw [htd] at htd2
        exact absurd htd2 (by simp)
    · exact ih acc1 m hnd.2 hrest k v1 hmem

theorem mergeFold_eqcase_id {ft : FeatureType} {ts : Bool} {d2 : FDict}
    (htd : (ft.is_time_dependent && !ts) = false) :
    ∀ (l acc m : FDict), l.foldlM (mergeStep ft ts d2) acc = .ok m → m = acc := by
  intro l
  induction l with
  | nil =>
    intro acc m h
    simp [List.foldlM_nil, pure, Except.pure] at h
    rw [h]
  | cons kv rest ih =>
    intro acc m h
    rw [List.foldlM_cons, exceptBind_ok] at h
    obtain ⟨acc1, hstep, hrest⟩ := h
    rcases mergeStep_ok_cases hstep with ⟨htd2, _⟩ | ⟨_, hacc, _⟩
    · rw [htd] at htd2
      exact absurd htd2 (by simp)
    · rw [hacc] at hrest
      exact ih acc m hrest

theorem mergeFold_err_conflict {ft : FeatureType} {ts : Bool} {d2 : FDict}
    (htd : (ft.is_time_dependent && !ts) = false) :
    ∀ (l acc : FDict),
    (∃ kv, kv ∈ l ∧ deep_eq kv.snd ((d2.lookup kv.fst).getD kv.snd) = false) →
    ∃ k, l.foldlM (mergeStep ft ts d2) acc = .error (.mergeConflict ft k) := by
  intro l
  induction l with
  | nil =>
    intro acc h
    obtain ⟨kv, hm, _⟩ := h
    simp at hm
  | cons kv0 rest ih =>
    intro acc h
    rw [List.foldlM_cons]
    by_cases he : deep_eq kv0.snd ((d2.lookup kv0.fst).getD kv0.snd) = true
    · have hstep : mergeStep ft ts d2 acc kv0 = .ok acc := by
        unfold mergeStep
        rw [if_neg (by rw [htd]; simp), if_pos he]
      rw [hstep]
      rw [show ((Except.ok acc : Except EOError FDict) >>=
            (fun a => rest.foldlM (mergeStep ft ts d2) a)) =
          rest.foldlM (mergeStep ft ts d2) acc from rfl]
      apply ih
      obtain ⟨kv, hm, hbad⟩ := h
      rcases List.mem_cons.mp hm with heq | hmem
      · rw [heq] at hbad
        rw [hbad] at he
        exact absurd he (by simp)
      · exact ⟨kv, hmem, hbad⟩
    · have hstep : mergeStep ft ts d2 acc kv0 = .error (.mergeConflict ft kv0.fst) := by
        unfold mergeStep
        rw [if_neg (by rw [htd]; simp), if_neg he]
      rw [hstep]
      exact ⟨kv0.fst, rfl⟩

theorem mergeFold_err_concat {ft : FeatureType} {ts : Bool} {d2 : FDict}
    (htd : (ft.is_time_dependent && !ts) = true) :
    ∀ (l acc : FDict),
    (∃ kv e0, kv ∈ l ∧
      EOPatch.concatenate_data kv.snd ((d2.lookup kv.fst).getD kv.snd) = .error e0) →
    ∃ e, l.foldlM (mergeStep ft ts d2) acc = .error e := by
  intro l
  induction l with
  | nil =>
    intro acc h
    obtain ⟨kv, e0, hm, _⟩ := h
    simp at hm
  | cons kv0 rest ih =>
    intro acc h
    rw [List.foldlM_cons]
    cases hstep : mergeStep ft ts d2 acc kv0 with
    | error e => exact ⟨e, rfl⟩
    | ok acc1 =>
      show ∃ e, rest.foldlM (mergeStep ft ts d2) acc1 = Except.error e
      apply ih
      obtain ⟨kv, e0, hm, hbad⟩ := h
      rcases List.mem_cons.mp hm with heq | hmem
      · rcases mergeStep_ok_cases hstep with ⟨_, c, hc, _⟩ | ⟨htd2, _, _⟩
        · rw [← heq] at hc
          rw [hc] at hbad
          exact absurd hbad (by simp)
        · rw [htd] at htd2
          exact absurd htd2 (by simp)
      · exact ⟨kv, e0, hmem, hbad⟩

theorem alist_lookup_map_keyval (g : String × Value → Value) (d : FDict) (k : String) :
    (d.map (fun kv => (kv.fst, g kv))).lookup k =
      (d.lookup k).map (fun v => g (k, v)) := by
  induction d with
  | nil => simp
  | cons kv0 rest ih =>
    obtain ⟨k0, v0⟩ := kv0
    simp only [List.map_cons]
    by_cases hk : k0 = k
    · subst hk
      rw [alist_lookup_cons_self, alist_lookup_cons_self]
      rfl
    · rw [alist_lookup_cons_ne hk, alist_lookup_cons_ne hk]
      exact ih

theorem alist_map_keyval_keys (g : String × Value → Value) (d : FDict) :
    (d.map (fun kv => (kv.fst, g kv))).map Prod.fst = d.map Prod.fst := by
  induction d with
  | nil => simp
  | cons kv0 rest ih =>
    simp only [List.map_cons]
    rw [ih]

theorem pyDictUnion_lookup_shared {d1 d2 : FDict} {k : String} {v1 v2 : Value}
    (h1 : d1.lookup k = some v1) (h2 : d2.lookup k = some v2) :
    (pyDictUnion d1 d2).lookup k = some v2 := by
  unfold pyDictUnion
  apply alist_lookup_append_left
  rw [alist_lookup_map_keyval (fun kv => (d2.lookup kv.fst).getD kv.snd) d1 k, h1]
  simp [h2]

theorem pyDictUnion_keys (d1 d2 : FDict) :
    fdKeys (pyDictUnion d1 d2) =
      fdKeys d1 ++ fdKeys (d2.filter (fun kv => (d1.lookup kv.fst).isNone)) := by
  unfold pyDictUnion fdKeys
  rw [List.map_append, alist_map_keyval_keys]

theorem pyDictUnion_nodup {d1 d2 : FDict} (h1 : (fdKeys d1).Nodup)
    (h2 : (fdKeys d2).Nodup) : (fdKeys (pyDictUnion d1 d2)).Nodup := by
  rw [pyDictUnion_keys]
  apply List.Nodup.append h1
  · exact ((List.filter_sublist d2).map Prod.fst).nodup h2
  · intro k hk1 hk2
    obtain ⟨kv, hkv, hfst⟩ := List.mem_map.mp hk2
    have hpred := (List.mem_filter.mp hkv).2
    rw [hfst] at hpred
    have : d1.lookup k = none := by
      cases hl : d1.lookup k with
      | none => rfl
      | some w =>
        rw [hl] at hpred
        simp at hpred
    exact (alist_lookup_none_iff d1 k).mp this (by exact hk1)

theorem pyDictUnion_disjoint_eq {d1 d2 : FDict}
    (h : ∀ k, k ∈ fdKeys d1 → k ∉ fdKeys d2) : pyDictUnion d1 d2 = d1 ++ d2 := by
  unfold pyDictUnion
  congr 1
  · rw [show d1.map (fun kv => (kv.fst, (d2.lookup kv.fst).getD kv.snd)) =
        d1.map (fun kv => kv) from ?_]
    · exact List.map_id d1
    · apply List.map_congr_left
      intro kv hkv
      have hnone : d2.lookup kv.fst = none := by
        apply (alist_lookup_none_iff d2 kv.fst).mpr
        exact h kv.fst (List.mem_map.mpr ⟨kv, hkv, rfl⟩)
      rw [hnone]
      rfl
  · apply List.filter_eq_self.mpr
    intro kv hkv
    have hnone : d1.lookup kv.fst = none := by
      apply (alist_lookup_none_iff d1 kv.fst).mpr
      intro hmem
      exact h kv.fst hmem (List.mem_map.mpr ⟨kv, hkv, rfl⟩)
    rw [hnone]
    rfl

theorem commonEntries_nil_of_disjoint {d1 d2 : FDict}
    (h : ∀ k, k ∈ fdKeys d1 → k ∉ fdKeys d2) : commonEntries d1 d2 = [] := by
  unfold commonEntries
  apply List.filter_eq_nil.mpr
  intro kv hkv
  have hnone : d2.lookup kv.fst = none := by
    apply (alist_lookup_none_iff d2 kv.fst).mpr
    exact h kv.fst (List.mem_map.mpr ⟨kv, hkv, rfl⟩)
  simp [hnone]

theorem init_ok_parts {d m s l v dt mt st lt vt mi : FDict} {bb : PyVal}
    {ts : List Nat} {q : EOPatch}
    (h : EOPatch.init (some d) (some m) (some s) (some l) (some v) (some dt)
      (some mt) (some st) (some lt) (some vt) (some mi) bb (some ts) = .ok q) :
    fdWrap .data d = .ok q.data ∧ fdWrap .mask m = .ok q.mask ∧
    fdWrap .scalar s = .ok q.scalar ∧ fdWrap .label l = .ok q.label ∧
    fdWrap .vector v = .ok q.vector ∧
    fdWrap .data_timeless dt = .ok q.data_timeless ∧
    fdWrap .mask_timeless mt = .ok q.mask_timeless ∧
    fdWrap .scalar_timeless st = .ok q.scalar_timeless ∧
    fdWrap .label_timeless lt = .ok q.label_timeless ∧
    fdWrap .vector_timeless vt = .ok q.vector_timeless ∧
    fdWrap .meta_info mi = .ok q.meta_info ∧
    q.bbox = bb ∧ q.timestamp = ts := by
  unfold EOPatch.init at h
  simp only [Option.getD_some] at h
  rw [exceptBind_ok] at h
  obtain ⟨w1, hw1, h⟩ := h
  rw [exceptBind_ok] at h
  obtain ⟨w2, hw2, h⟩ := h
  rw [exceptBind_ok] at h
  obtain ⟨w3, hw3, h⟩ := h
  rw [exceptBind_ok] at h
  obtain ⟨w4, hw4, h⟩ := h
  rw [exceptBind_ok] at h
  obtain ⟨w5, hw5, h⟩ := h
  rw [exceptBind_ok] at h
  obtain ⟨w6, hw6, h⟩ := h
  rw [exceptBind_ok] at h
  obtain ⟨w7, hw7, h⟩ := h
  rw [exceptBind_ok] at h
  obtain ⟨w8, hw8, h⟩ := h
  rw [exceptBind_ok] at h
  obtain ⟨w9, hw9, h⟩ := h
  rw [exceptBind_ok] at h
  obtain ⟨w10, hw10, h⟩ := h
  rw [exceptBind_ok] at h
  obtain ⟨w11, hw11, h⟩ := h
  have hq := Except.ok.inj h
  subst hq
  exact ⟨hw1, hw2, hw3, hw4, hw5, hw6, hw7, hw8, hw9, hw10, hw11, rfl, rfl⟩

theorem mergeTimestampVal_ok {e1 e2 : EOPatch} {ts : List Nat}
    (h : mergeTimestampVal e1 e2 = .ok ts) :
    ts = if concTsExist e1 e2 && !concTsMatch e1 e2 then e1.timestamp ++ e2.timestamp
         else if e1.timestamp.isEmpty || e1.timestamp == e2.timestamp then e2.timestamp
         else e1.timestamp := by
  unfold mergeTimestampVal at h
  by_cases hcond : (concTsExist e1 e2 && !concTsMatch e1 e2) = true
  · rw [if_pos hcond] at h ⊢
    exact (Except.ok.inj h).symm
  · rw [if_neg hcond] at h
    rw [if_neg hcond]
    rw [exceptBind_ok] at h
    obtain ⟨py, hpy, hm⟩ := h
    unfold mergeSingleton at hpy
    have htr : (!(PyVal.pylist e1.timestamp).truthy) = e1.timestamp.isEmpty := by
      simp [PyVal.truthy]
    by_cases hc1 : (!(PyVal.pylist e1.timestamp).truthy ||
        pyDeepEq (.pylist e1.timestamp) (.pylist e2.timestamp)) = true
    · rw [if_pos hc1] at hpy
      have hpy2 : py = PyVal.pylist e2.timestamp := (Except.ok.inj hpy).symm
      subst hpy2
      rw [if_pos (by rw [htr] at hc1; exact hc1)]
      exact (Except.ok.inj hm).symm
    · rw [if_neg hc1] at hpy
      by_cases hc2 : (!(PyVal.pylist e2.timestamp).truthy) = true
      · rw [if_pos hc2] at hpy
        have hpy2 : py = PyVal.pylist e1.timestamp := (Except.ok.inj hpy).symm
        subst hpy2
        rw [if_neg (by rw [htr] at hc1; exact hc1)]
        exact (Except.ok.inj hm).symm
      · rw [if_neg hc2] at hpy
        exact absurd hpy (by simp)

theorem concatenate_ok_parts {e1 e2 q : EOPatch}
    (h : EOPatch.concatenate e1 e2 = .ok q) :
    (∃ m, mergeDictFT .data (concTsMatch e1 e2) e1.data e2.data = .ok m ∧
       fdWrap .data m = .ok q.data) ∧
    (∃ m, mergeDictFT .mask (concTsMatch e1 e2) e1.mask e2.mask = .ok m ∧
       fdWrap .mask m = .ok q.mask) ∧
    (∃ m, mergeDictFT .scalar (concTsMatch e1 e2) e1.scalar e2.scalar = .ok m ∧
       fdWrap .scalar m = .ok q.scalar) ∧
    (∃ m, mergeDictFT .label (concTsMatch e1 e2) e1.label e2.label = .ok m ∧
       fdWrap .label m = .ok q.label) ∧
    (∃ m, mergeDictFT .vector (concTsMatch e1 e2) e1.vector e2.vector = .ok m ∧
       fdWrap .vector m = .ok q.vector) ∧
    (∃ m, mergeDictFT .data_timeless (concTsMatch e1 e2) e1.data_timeless e2.data_timeless = .ok m ∧
       fdWrap .data_timeless m = .ok q.data_timeless) ∧
    (∃ m, mergeDictFT .mask_timeless (concTsMatch e1 e2) e1.mask_timeless e2.mask_timeless = .ok m ∧
       fdWrap .mask_timeless m = .ok q.mask_timeless) ∧
    (∃ m, mergeDictFT .scalar_timeless (concTsMatch e1 e2) e1.scalar_timeless e2.scalar_timeless = .ok m ∧
       fdWrap .scalar_timeless m = .ok q.scalar_timeless) ∧
    (∃ m, mergeDictFT .label_timeless (concTsMatch e1 e2) e1.label_timeless e2.label_timeless = .ok m ∧
       fdWrap .label_timeless m = .ok q.label_timeless) ∧
    (∃ m, mergeDictFT .vector_timeless (concTsMatch e1 e2) e1.vector_timeless e2.vector_timeless = .ok m ∧
       fdWrap .vector_timeless m = .ok q.vector_timeless) ∧
    (∃ m, mergeDictFT .meta_info (concTsMatch e1 e2) e1.meta_info e2.meta_info = .ok m ∧
       fdWrap .meta_info m = .ok q.meta_info) ∧
    (∃ bb, mergeSingleton .bbox e1.bbox e2.bbox = .ok bb ∧ q.bbox = bb) ∧
    (q.timestamp =
      if concTsExist e1 e2 && !concTsMatch e1 e2 then e1.timestamp ++ e2.timestamp
      else if e1.timestamp.isEmpty || e1.timestamp == e2.timestamp then e2.timestamp
      else e1.timestamp) := by
  unfold EOPatch.concatenate at h
  rw [exceptBind_ok] at h
  obtain ⟨m1, hm1, h⟩ := h
  rw [exceptBind_ok] at h
  obtain ⟨m2, hm2, h⟩ := h
  rw [exceptBind_ok] at h
  obtain ⟨m3, hm3, h⟩ := h
  rw [exceptBind_ok] at h
  obtain ⟨m4, hm4, h⟩ := h
  rw [exceptBind_ok] at h
  obtain ⟨m5, hm5, h⟩ := h
  rw [exceptBind_ok] at h
  obtain ⟨m6, hm6, h⟩ := h
  rw [exceptBind_ok] at h
  obtain ⟨m7, hm7, h⟩ := h
  rw [exceptBind_ok] at h
  obtain ⟨m8, hm8, h⟩ := h
  rw [exceptBind_ok] at h
  obtain ⟨m9, hm9, h⟩ := h
  rw [exceptBind_ok] at h
  obtain ⟨m10, hm10, h⟩ := h
  rw [exceptBind_ok] at h
  obtain ⟨m11, hm11, h⟩ := h
  rw [exceptBind_ok] at h
  obtain ⟨bb, hbb, h⟩ := h
  rw [exceptBind_ok] at h
  obtain ⟨ts, hts, h⟩ := h
  obtain ⟨p1, p2, p3, p4, p5, p6, p7, p8, p9, p10, p11, pbb, pts⟩ := init_ok_parts h
  refine ⟨⟨m1, hm1, p1⟩, ⟨m2, hm2, p2⟩, ⟨m3, hm3, p3⟩, ⟨m4, hm4, p4⟩,
    ⟨m5, hm5, p5⟩, ⟨m6, hm6, p6⟩, ⟨m7, hm7, p7⟩, ⟨m8, hm8, p8⟩,
    ⟨m9, hm9, p9⟩, ⟨m10, hm10, p10⟩, ⟨m11, hm11, p11⟩, ⟨bb, hbb, pbb⟩, ?_⟩
  rw [pts]
  exact mergeTimestampVal_ok hts

theorem concatenate_ok_dict {e1 e2 q : EOPatch} (h : EOPatch.concatenate e1 e2 = .ok q)
    (ft : FeatureType) (hft : ft.has_dict = true) :
    ∃ m, mergeDictFT ft (concTsMatch e1 e2) (e1.getDict ft) (e2.getDict ft) = .ok m ∧
      fdWrap ft m = .ok (q.getDict ft) := by
  obtain ⟨p1, p2, p3, p4, p5, p6, p7, p8, p9, p10, p11, _, _⟩ := concatenate_ok_parts h
  cases ft with
  | data => exact p1
  | mask => exact p2
  | scalar => exact p3
  | label => exact p4
  | vector => exact p5
  | data_timeless => exact p6
  | mask_timeless => exact p7
  | scalar_timeless => exact p8
  | label_timeless => exact p9
  | vector_timeless => exact p10
  | meta_info => exact p11
  | bbox => simp [FeatureType.has_dict] at hft
  | timestamp => simp [FeatureType.has_dict] at hft

theorem concatenate_fails_of_dict_err {e1 e2 : EOPatch} {ft : FeatureType}
    (hft : ft.has_dict = true) {e0 : EOError}
    (herr : mergeDictFT ft (concTsMatch e1 e2) (e1.getDict ft) (e2.getDict ft) = .error e0) :
    ∀ q, EOPatch.concatenate e1 e2 ≠ .ok q := by
  intro q hok
  obtain ⟨m, hm, _⟩ := concatenate_ok_dict hok ft hft
  rw [herr] at hm
  exact absurd hm (by simp)

/-! Claim theorems. -/

theorem getDict_setDict_same {e : EOPatch} {ft : FeatureType} {d : FDict}
    (hft : ft.has_dict = true) : (e.setDict ft d).getDict ft = d := by
  cases ft <;> first | rfl | simp [FeatureType.has_dict] at hft

/-- Claim C1, counterexample.  The claim states that reading any namespace
attribute of a patch constructed with no arguments never yields None,
including the bounding-box singleton.  In the source (eodata.py line 94) the
bbox argument defaults to None and is stored unchanged, so EOPatch().bbox is
None: constructing with all defaults succeeds and reading the bbox attribute
yields None. -/
theorem c1_counterexample :
    EOPatch.init none none none none none none none none none none none
      .pynone none = .ok EOPatch.empty ∧
    EOPatch.empty.getItem .bbox = .pynone :=
  ⟨rfl, rfl⟩

/-- Claim C1, amended: for every patch, reading the attribute of any
namespace other than the bounding box never yields None (mapping namespaces
read as dictionaries and the timestamp as a list, empty when absent, and
None can never be assigned to them); the bounding-box attribute of a patch
constructed with no arguments is None. -/
theorem c1_amended :
    (∀ (e : EOPatch) (ft : FeatureType), ft ≠ .bbox → e.getItem ft ≠ .pynone) ∧
    (∀ ft : FeatureType, ft.has_dict = true → EOPatch.empty.getDict ft = []) ∧
    EOPatch.empty.timestamp = [] ∧
    (∀ (e : EOPatch) (ft : FeatureType), ft ≠ .bbox →
      e.setattr ft .pynone = .error (.typeErr ft)) := by
  refine ⟨?_, ?_, rfl, ?_⟩
  · intro e ft hft
    cases ft <;> simp [EOPatch.getItem] at hft ⊢
  · intro ft hft
    cases ft <;> first | rfl | simp [FeatureType.has_dict] at hft
  · intro e ft hft
    cases ft <;> first | rfl | simp at hft

/-- Claim C1 witness: the amended theorem applied to the no-argument patch
and the data namespace. -/
theorem c1_witness :
    EOPatch.empty.getItem .data ≠ .pynone ∧
    EOPatch.empty.getDict .data = [] ∧
    EOPatch.empty.setattr .data .pynone = .error (.typeErr .data) :=
  ⟨c1_amended.1 EOPatch.empty .data (by decide),
   c1_amended.2.1 .data (by decide),
   c1_amended.2.2.2 EOPatch.empty .data (by decide)⟩

theorem validEntry_false_of_not_rank {ft : FeatureType} {v : Value}
    (hr : ft.ndim ≠ 0) (hv : ∀ a : NdArray, v = .array a → a.shape.length ≠ ft.ndim) :
    validEntry ft v = false := by
  unfold validEntry
  rw [if_neg hr]
  cases v with
  | array a => simp [hv a rfl]
  | vlist l => rfl
  | obj o => rfl

/-- Claim C3: for every array namespace (expected rank non-zero) and every
value that is not an ndarray of exactly that rank, the validating
__setitem__ fails immediately with the shape error naming the namespace and
rank (storing nothing); the same check is applied retroactively to every
entry of a raw mapping when it is wrapped — at indexed set through
__setattr__ and at patch construction through __init__. -/
theorem c3_rank_check (ft : FeatureType) (hr : ft.ndim ≠ 0) :
    (∀ (d : FDict) (k : String) (v : Value),
      (∀ a : NdArray, v = .array a → a.shape.length ≠ ft.ndim) →
      fdSetItem ft d k v = .error (.shapeErr ft ft.ndim)) ∧
    (∀ raw : FDict,
      (∃ kv, kv ∈ raw ∧ ∀ a : NdArray, kv.snd = .array a → a.shape.length ≠ ft.ndim) →
      fdWrap ft raw = .error (.shapeErr ft ft.ndim)) ∧
    (∀ (e : EOPatch) (raw : FDict), ft.has_dict = true →
      (∃ kv, kv ∈ raw ∧ ∀ a : NdArray, kv.snd = .array a → a.shape.length ≠ ft.ndim) →
      e.setattr ft (.pydict raw) = .error (.shapeErr ft ft.ndim)) ∧
    (∀ raw : FDict,
      (∃ kv, kv ∈ raw ∧ ∀ a : NdArray, kv.snd = .array a → a.shape.length ≠ 4) →
      EOPatch.init (some raw) none none none none none none none none none none
        .pynone none = .error (.shapeErr .data 4)) := by
  refine ⟨?_, ?_, ?_, ?_⟩
  · intro d k v hv
    exact fdSetItem_err_of_invalid ft d k hr (validEntry_false_of_not_rank hr hv)
  · intro raw hbad
    unfold fdWrap
    apply fdWrap_err ft hr raw []
    obtain ⟨kv, hm, hv⟩ := hbad
    exact ⟨kv, hm, validEntry_false_of_not_rank hr hv⟩
  · intro e raw hft hbad
    unfold EOPatch.setattr
    rw [if_pos hft]
    have hw : fdWrap ft raw = .error (.shapeErr ft ft.ndim) := by
      unfold fdWrap
      apply fdWrap_err ft hr raw []
      obtain ⟨kv, hm, hv⟩ := hbad
      exact ⟨kv, hm, validEntry_false_of_not_rank hr hv⟩
    show (fdWrap ft raw >>= fun w => (Except.ok (e.setDict ft w) : Except EOError EOPatch)) =
      Except.error (.shapeErr ft ft.ndim)
    rw [hw]
    rfl
  · intro raw hbad
    have hw : fdWrap .data raw = .error (.shapeErr .data 4) := by
      unfold fdWrap
      apply fdWrap_err .data (by decide) raw []
      obtain ⟨kv, hm, hv⟩ := hbad
      exact ⟨kv, hm, validEntry_false_of_not_rank (by decide) (by exact hv)⟩
    unfold EOPatch.init
    simp only [Option.getD_some]
    rw [hw]
    rfl

/-- Claim C3 witness: the rank check at the data namespace (rank 4) on a
rank-2 array and on a non-array value, through the validating setter, the
wrap of a raw mapping, the indexed set, and construction. -/
theorem c3_witness :
    FeatureType.data.ndim ≠ 0 ∧
    fdSetItem .data [] "X" (.array ⟨[1, 2], [0, 0]⟩) =
      .error (.shapeErr .data FeatureType.data.ndim) ∧
    fdWrap .data [("X", .obj 7)] = .error (.shapeErr .data FeatureType.data.ndim) ∧
    EOPatch.empty.setattr .data (.pydict [("X", .obj 7)]) =
      .error (.shapeErr .data FeatureType.data.ndim) ∧
    EOPatch.init (some [("X", .obj 7)]) none none none none none none none none
      none none .pynone none = .error (.shapeErr .data 4) := by
  refine ⟨by decide, ?_, ?_, ?_, ?_⟩
  · exact (c3_rank_check .data (by decide)).1 [] "X" (.array ⟨[1, 2], [0, 0]⟩)
      (by intro a ha; cases ha; decide)
  · exact (c3_rank_check .data (by decide)).2.1 [("X", .obj 7)]
      ⟨("X", .obj 7), by simp, by intro a ha; cases ha⟩
  · exact (c3_rank_check .data (by decide)).2.2.1 EOPatch.empty [("X", .obj 7)]
      (by decide) ⟨("X", .obj 7), by simp, by intro a ha; cases ha⟩
  · exact (c3_rank_check .data (by decide)).2.2.2 [("X", .obj 7)]
      ⟨("X", .obj 7), by simp, by intro a ha; cases ha⟩

theorem fdInsert_mem {d : FDict} {k : String} {v : Value} {kv2 : String × Value}
    (h : kv2 ∈ fdInsert d k v) : kv2 = (k, v) ∨ kv2 ∈ d := by
  unfold fdInsert at h
  by_cases hp : (d.lookup k).isSome
  · rw [if_pos hp] at h
    obtain ⟨kv0, hkv0, heq⟩ := List.mem_map.mp h
    by_cases hk : kv0.fst = k
    · rw [if_pos hk] at heq
      exact Or.inl heq.symm
    · rw [if_neg hk] at heq
      exact Or.inr (heq ▸ hkv0)
  · rw [if_neg hp] at h
    rcases List.mem_append.mp h with hm | hm
    · exact Or.inr hm
    · exact Or.inl (List.mem_singleton.mp hm)

theorem fdWrap_go_valid (ft : FeatureType) (hnz : ft.ndim ≠ 0) :
    ∀ (d acc m : FDict), (∀ kv, kv ∈ acc → validEntry ft kv.snd = true) →
    d.foldlM (fun acc kv => fdSetItem ft acc kv.fst kv.snd) acc = .ok m →
    ∀ kv, kv ∈ m → validEntry ft kv.snd = true := by
  intro d
  induction d with
  | nil =>
    intro acc m hacc h
    simp [List.foldlM_nil, pure, Except.pure] at h
    rw [← h]
    exact hacc
  | cons kv0 rest ih =>
    intro acc m hacc h
    obtain ⟨k0, v0⟩ := kv0
    rw [List.foldlM_cons, exceptBind_ok] at h
    obtain ⟨acc1, hstep, hrest⟩ := h
    unfold fdSetItem at hstep
    by_cases hcond : ft.ndim ≠ 0 ∧ validEntry ft v0 = false
    · rw [if_pos hcond] at hstep
      exact absurd hstep (by simp)
    · rw [if_neg hcond] at hstep
      have hv0 : validEntry ft v0 = true := by
        by_cases hv : validEntry ft v0 = true
        · exact hv
        · exact absurd ⟨hnz, Bool.not_eq_true _ ▸ hv⟩ hcond
      have hacc1 : ∀ kv, kv ∈ acc1 → validEntry ft kv.snd = true := by
        intro kv hm
        rw [← Except.ok.inj hstep] at hm
        rcases fdInsert_mem hm with heq | hmem
        · rw [heq]
          exact hv0
        · exact hacc kv hmem
      exact ih acc1 m hacc1 hrest

theorem fdWrap_valid_out {ft : FeatureType} {raw w : FDict}
    (h : fdWrap ft raw = .ok w) :
    ∀ kv, kv ∈ w → validEntry ft kv.snd = true := by
  by_cases hnz : ft.ndim = 0
  · intro kv _
    unfold validEntry
    rw [if_pos hnz]
  · exact fdWrap_go_valid ft hnz raw [] w (by simp) h

/-- Claim C10: assigning a value of the wrong container type to a namespace
attribute raises a TypeError (and, the assignment being rejected before the
store, produces no modified patch): a list, None, a bounding box or another
object assigned to a mapping namespace, and any non-list assigned to the
timestamp namespace.  Consequently a successful raw-dict assignment stores
exactly the wrapped validating mapping, so the namespace's rank check has
been applied to every entry and applies to every subsequent write through
the validating setter. -/
theorem c10_setattr_type_check :
    (∀ (e : EOPatch) (ft : FeatureType), ft.has_dict = true →
      (∀ l : List Nat, e.setattr ft (.pylist l) = .error (.typeErr ft)) ∧
      e.setattr ft .pynone = .error (.typeErr ft) ∧
      (∀ b : BBox, e.setattr ft (.pybbox b) = .error (.typeErr ft)) ∧
      (∀ o : Nat, e.setattr ft (.pyother o) = .error (.typeErr ft))) ∧
    (∀ (e : EOPatch) (v : PyVal), (∀ l : List Nat, v ≠ .pylist l) →
      e.setattr .timestamp v = .error (.typeErr .timestamp)) ∧
    (∀ (e : EOPatch) (ft : FeatureType) (raw : FDict) (q : EOPatch),
      ft.has_dict = true → e.setattr ft (.pydict raw) = .ok q →
      fdWrap ft raw = .ok (q.getDict ft) ∧
      (∀ kv, kv ∈ q.getDict ft → validEntry ft kv.snd = true) ∧
      (∀ (k : String) (v : Value), validEntry ft v = false → ft.ndim ≠ 0 →
        fdSetItem ft (q.getDict ft) k v = .error (.shapeErr ft ft.ndim))) := by
  refine ⟨?_, ?_, ?_⟩
  · intro e ft hft
    refine ⟨fun l => ?_, ?_, fun b => ?_, fun o => ?_⟩ <;>
      (cases ft <;> first | rfl | simp [FeatureType.has_dict] at hft)
  · intro e v hv
    cases v with
    | pylist l => exact absurd rfl (hv l)
    | pynone => rfl
    | pydict d => rfl
    | pyfdict ft d => rfl
    | pybbox b => rfl
    | pyother o => rfl
  · intro e ft raw q hft hset
    unfold EOPatch.setattr at hset
    rw [if_pos hft] at hset
    have hset2 : (fdWrap ft raw >>= fun w =>
        (Except.ok (e.setDict ft w) : Except EOError EOPatch)) = .ok q := hset
    rw [exceptBind_ok] at hset2
    obtain ⟨w, hw, hq⟩ := hset2
    have hqd : q.getDict ft = w := by
      have := Except.ok.inj hq
      rw [← this, getDict_setDict_same hft]
    constructor
    · rw [hqd]
      exact hw
    constructor
    · intro kv hm
      rw [hqd] at hm
      exact fdWrap_valid_out hw kv hm
    · intro k v hval hnz
      exact fdSetItem_err_of_invalid ft _ k hnz hval

/-- Claim C10 witness: the type check applied to the data and timestamp
namespaces of the no-argument patch, and the wrapping of a successful
raw-dict assignment. -/
theorem c10_witness :
    EOPatch.empty.setattr .data (.pylist [1]) = .error (.typeErr .data) ∧
    EOPatch.empty.setattr .timestamp .pynone = .error (.typeErr .timestamp) ∧
    fdWrap .data [("A", .array ⟨[1, 1, 1, 1], [0]⟩)] =
      .ok ((EOPatch.empty.setDict .data
        [("A", .array ⟨[1, 1, 1, 1], [0]⟩)]).getDict .data) := by
  refine ⟨?_, ?_, ?_⟩
  · exact (c10_setattr_type_check.1 EOPatch.empty .data (by decide)).1 [1]
  · exact c10_setattr_type_check.2.1 EOPatch.empty .pynone (fun l => by simp)
  · exact (c10_setattr_type_check.2.2 EOPatch.empty .data
      [("A", .array ⟨[1, 1, 1, 1], [0]⟩)]
      (EOPatch.empty.setDict .data [("A", .array ⟨[1, 1, 1, 1], [0]⟩)])
      (by decide) (by decide)).1

/-- Claim C9: when the fetch task executes against a pre-existing patch whose
timestamp sequence is non-empty and differs, in length or in any element,
from the newly resolved timestamp sequence, the timestamp gate of execute
raises the timestamp-mismatch error, so the pipeline never reaches the
download-and-extract stage that writes data into the patch. -/
theorem c9_timestamp_mismatch (ets r : List Nat) (hne : ets ≠ []) (hdiff : r ≠ ets) :
    executeTimestampGate ets (some r) = .error .timestampMismatch := by
  unfold executeTimestampGate
  rw [if_pos (by
    cases ets with
    | nil => exact absurd rfl hne
    | cons t ts => simp [List.isEmpty])]
  have hchk : check_timestamp_difference r ets = .error .timestampMismatch := by
    unfold check_timestamp_difference
    by_cases hlen : r.length = ets.length
    · rw [if_neg (by simp [hlen])]
      rw [if_pos]
      have : ∃ p, p ∈ r.zip ets ∧ p.fst ≠ p.snd := by
        by_contra hall
        push_neg at hall
        apply hdiff
        exact List.ext_get hlen (fun i h1 h2 => by
          have hmem : (r.get ⟨i, h1⟩, ets.get ⟨i, h2⟩) ∈ r.zip ets := by
            rw [List.mem_iff_get]
            refine ⟨⟨i, by rw [List.length_zip, hlen, Nat.min_self]; exact h2⟩, ?_⟩
            rw [List.get_zip]
          exact hall _ hmem)
      obtain ⟨p, hmem, hne2⟩ := this
      rw [List.any_eq_true]
      exact ⟨p, hmem, by simp [hne2]⟩
    · rw [if_pos (by simp [hlen])]
  show (check_timestamp_difference r ets >>= fun _ =>
    (Except.ok ets : Except EOError (List Nat))) = Except.error .timestampMismatch
  rw [hchk]
  rfl

/-- Claim C9 witness: a pre-existing patch with timestamps differing in one
element from the newly resolved sequence. -/
theorem c9_witness :
    ([1, 2] : List Nat) ≠ [] ∧ ([1, 3] : List Nat) ≠ [1, 2] ∧
    executeTimestampGate [1, 2] (some [1, 3]) = .error .timestampMismatch :=
  ⟨by decide, by decide, c9_timestamp_mismatch [1, 2] [1, 3] (by decide) (by decide)⟩

theorem contains_iff_mem {l : List String} {x : String} :
    l.contains x = true ↔ x ∈ l :=
  List.elem_iff

theorem caseColl_err_shape (ft : FeatureType) : ∀ (names seen : List String) (e0 : EOError),
    caseCollisionLoop ft names seen = .error e0 →
    ∃ n1 n2, e0 = .namingCollision ft n1 n2 := by
  intro names
  induction names with
  | nil =>
    intro seen e0 h
    simp [caseCollisionLoop] at h
  | cons n rest ih =>
    intro seen e0 h
    unfold caseCollisionLoop at h
    by_cases hc : seen.contains (strLower n) = true
    · rw [if_pos hc] at h
      exact ⟨n, (strLower n), (Except.error.inj h).symm⟩
    · rw [if_neg hc] at h
      exact ih _ e0 h

theorem caseColl_err (ft : FeatureType) : ∀ (names seen : List String),
    (¬(names.map strLower).Nodup ∨ ∃ n, n ∈ names ∧ (strLower n) ∈ seen) →
    ∃ n1 n2, caseCollisionLoop ft names seen = .error (.namingCollision ft n1 n2) := by
  intro names
  induction names with
  | nil =>
    intro seen h
    rcases h with h | ⟨n, hm, _⟩
    · exact absurd List.nodup_nil h
    · simp at hm
  | cons n rest ih =>
    intro seen h
    unfold caseCollisionLoop
    by_cases hc : seen.contains (strLower n) = true
    · rw [if_pos hc]
      exact ⟨n, (strLower n), rfl⟩
    · rw [if_neg hc]
      apply ih
      have hnotin : (strLower n) ∉ seen := fun hm => hc (contains_iff_mem.mpr hm)
      rcases h with h | ⟨m, hm, hms⟩
      · rw [List.map_cons, List.nodup_cons] at h
        by_cases hdup : (strLower n) ∈ rest.map strLower
        · obtain ⟨m, hm, hml⟩ := List.mem_map.mp hdup
          exact Or.inr ⟨m, hm, by rw [hml]; exact List.mem_cons_self _ _⟩
        · refine Or.inl (fun hnodup => h ⟨hdup, hnodup⟩)
      · rcases List.mem_cons.mp hm with rfl | hmem
        · exact absurd hms hnotin
        · exact Or.inr ⟨m, hmem, List.mem_cons_of_mem _ hms⟩

theorem saveFT_err_shape {e : EOPatch} {fmt : FileFormat} {ft : FeatureType}
    {e0 : EOError} (h : saveFT e fmt ft = .error e0) :
    ∃ ft2 n1 n2, e0 = .namingCollision ft2 n1 n2 := by
  unfold saveFT at h
  by_cases h1 : (e.getItem ft).truthy = false
  · rw [if_pos h1] at h
    exact absurd h (by simp)
  · rw [if_neg h1] at h
    by_cases h2 : (fmt = .pickle || !ft.contains_ndarrays) = true
    · rw [if_pos h2] at h
      exact absurd h (by simp)
    · rw [if_neg h2] at h
      cases hc : caseCollisionLoop ft (fdKeys (e.getDict ft)) [] with
      | error e1 =>
        rw [hc] at h
        have he := Except.error.inj (show (Except.error e1 : Except EOError (Option SaveOp)) = .error e0 from h)
        obtain ⟨n1, n2, hsh⟩ := caseColl_err_shape ft _ _ e1 hc
        exact ⟨ft, n1, n2, he ▸ hsh⟩
      | ok u =>
        rw [hc] at h
        exact absurd h (by simp [Bind.bind, Except.bind])

theorem saveStep_err_shape {e : EOPatch} {fmt : FileFormat} {acc : List SaveOp}
    {ft : FeatureType} {e0 : EOError} (h : saveStep e fmt acc ft = .error e0) :
    ∃ ft2 n1 n2, e0 = .namingCollision ft2 n1 n2 := by
  unfold saveStep at h
  cases hs : saveFT e fmt ft with
  | error e1 =>
    rw [hs] at h
    have he := Except.error.inj (show (Except.error e1 : Except EOError (List SaveOp)) = .error e0 from h)
    exact he ▸ saveFT_err_shape hs
  | ok u =>
    rw [hs] at h
    cases u <;> exact absurd h (by simp [Bind.bind, Except.bind])

theorem saveFold_err (e : EOPatch) (fmt : FileFormat) :
    ∀ (l : List FeatureType) (acc : List SaveOp),
    (∃ ft e0, ft ∈ l ∧ saveFT e fmt ft = .error e0) →
    ∃ e2, l.foldlM (saveStep e fmt) acc = .error e2 := by
  intro l
  induction l with
  | nil =>
    intro acc h
    obtain ⟨ft, e0, hm, _⟩ := h
    simp at hm
  | cons ft0 rest ih =>
    intro acc h
    rw [List.foldlM_cons]
    cases hstep : saveStep e fmt acc ft0 with
    | error e1 => exact ⟨e1, rfl⟩
    | ok acc1 =>
      show ∃ e2, rest.foldlM (saveStep e fmt) acc1 = Except.error e2
      apply ih
      obtain ⟨ft, e0, hm, hbad⟩ := h
      rcases List.mem_cons.mp hm with rfl | hmem
      · unfold saveStep at hstep
        rw [hbad] at hstep
        exact absurd hstep (by simp [Bind.bind, Except.bind])
      · exact ⟨ft, e0, hmem, hbad⟩

theorem saveFold_err_shape (e : EOPatch) (fmt : FileFormat) :
    ∀ (l : List FeatureType) (acc : List SaveOp) (e2 : EOError),
    l.foldlM (saveStep e fmt) acc = .error e2 →
    ∃ ft2 n1 n2, e2 = .namingCollision ft2 n1 n2 := by
  intro l
  induction l with
  | nil =>
    intro acc e2 h
    simp [List.foldlM_nil, pure, Except.pure] at h
  | cons ft0 rest ih =>
    intro acc e2 h
    rw [List.foldlM_cons] at h
    cases hstep : saveStep e fmt acc ft0 with
    | error e1 =>
      rw [hstep] at h
      have he := Except.error.inj (show (Except.error e1 : Except EOError (List SaveOp)) = .error e2 from h)
      exact he ▸ saveStep_err_shape hstep
    | ok acc1 =>
      rw [hstep] at h
      exact ih acc1 e2 h

theorem contains_ndarrays_has_dict {ft : FeatureType}
    (h : ft.contains_ndarrays = true) : ft.has_dict = true := by
  cases ft <;> first | rfl | simp [FeatureType.contains_ndarrays, FeatureType.ndim] at h

/-- Claim C5, counterexample.  The claim states that a patch holding two
feature names identical after case-folding fails to save regardless of the
chosen on-disk format.  In the source the collision check lives only in
_save_npy_feature_type, which is reached only for ndarray-bearing namespaces
saved in the npy format: saving the same patch in the pickle format performs
no name check and succeeds. -/
theorem c5_counterexample :
    ({ EOPatch.empty with
      data := [("A", .array ⟨[1, 1, 1, 1], [0]⟩), ("a", .array ⟨[1, 1, 1, 1], [0]⟩)] }
        : EOPatch).save .pickle = .ok [.pickleFile .data] ∧
    strLower "A" = strLower "a" :=
  ⟨rfl, by decide⟩

/-- Claim C5, amended: a case-folded naming collision among the feature names
of an ndarray-bearing namespace makes the save in the default columnar (npy)
format fail with a naming-collision error; such names remain permitted in the
in-memory mapping (the validating setter accepts them whenever the rank rule
holds).  Pickle-format saves, and namespaces not holding fixed-rank ndarrays,
are not checked. -/
theorem c5_amended (e : EOPatch) (ft : FeatureType)
    (hnda : ft.contains_ndarrays = true)
    (hcoll : ¬((fdKeys (e.getDict ft)).map strLower).Nodup) :
    (∃ ft2 n1 n2, e.save .npy = .error (.namingCollision ft2 n1 n2)) ∧
    (∀ (d : FDict) (k1 k2 : String) (v1 v2 : Value),
      validEntry ft v1 = true → validEntry ft v2 = true →
      fdSetItem ft d k1 v1 = .ok (fdInsert d k1 v1) ∧
      fdSetItem ft (fdInsert d k1 v1) k2 v2 =
        .ok (fdInsert (fdInsert d k1 v1) k2 v2)) := by
  constructor
  · have hdict := contains_ndarrays_has_dict hnda
    have hne : e.getDict ft ≠ [] := by
      intro hnil
      rw [hnil] at hcoll
      exact hcoll (by simp [fdKeys])
    have htruthy : (e.getItem ft).truthy = true := by
      cases ft <;>
        first
          | (simp only [EOPatch.getItem, EOPatch.getDict, PyVal.truthy]
             simp only [EOPatch.getDict] at hne
             simp [List.isEmpty_iff, hne]
             done)
          | (simp [FeatureType.has_dict] at hdict)
    obtain ⟨n1, n2, hloop⟩ := caseColl_err ft (fdKeys (e.getDict ft)) [] (Or.inl hcoll)
    have hft : saveFT e .npy ft = .error (.namingCollision ft n1 n2) := by
      unfold saveFT
      rw [if_neg (by rw [htruthy]; simp)]
      rw [if_neg (by rw [hnda]; decide)]
      show (caseCollisionLoop ft (fdKeys (e.getDict ft)) [] >>= fun _ =>
        (Except.ok (some (.npyDir ft (fdKeys (e.getDict ft)))) : Except EOError (Option SaveOp))) = _
      rw [hloop]
      rfl
    obtain ⟨e2, hsave⟩ := saveFold_err e .npy allFeatureTypes []
      ⟨ft, .namingCollision ft n1 n2, by cases ft <;> simp [allFeatureTypes], hft⟩
    obtain ⟨ft2, m1, m2, hshape⟩ := saveFold_err_shape e .npy allFeatureTypes [] e2 hsave
    exact ⟨ft2, m1, m2, by rw [show EOPatch.save e .npy =
      allFeatureTypes.foldlM (saveStep e .npy) [] from rfl, hsave, hshape]⟩
  · intro d k1 k2 v1 v2 hv1 hv2
    exact ⟨fdSetItem_ok_of_valid ft d k1 hv1, fdSetItem_ok_of_valid ft _ k2 hv2⟩

/-- Claim C5 witness: the amended theorem at a patch whose data namespace
holds the names A and a. -/
theorem c5_witness :
    (∃ ft2 n1 n2,
      ({ EOPatch.empty with
        data := [("A", .array ⟨[1, 1, 1, 1], [0]⟩), ("a", .array ⟨[1, 1, 1, 1], [0]⟩)] }
          : EOPatch).save .npy = .error (.namingCollision ft2 n1 n2)) ∧
    fdSetItem .data [] "A" (.array ⟨[1, 1, 1, 1], [0]⟩) =
      .ok (fdInsert [] "A" (.array ⟨[1, 1, 1, 1], [0]⟩)) := by
  refine ⟨(c5_amended _ .data (by decide) (by decide)).1, ?_⟩
  exact ((c5_amended { EOPatch.empty with
      data := [("A", .array ⟨[1, 1, 1, 1], [0]⟩), ("a", .array ⟨[1, 1, 1, 1], [0]⟩)] }
    .data (by decide) (by decide)).2 [] "A" "a"
    (.array ⟨[1, 1, 1, 1], [0]⟩) (.array ⟨[1, 1, 1, 1], [0]⟩)
    (by decide) (by decide)).1

theorem wfb_dict {e : EOPatch} (h : e.wfb = true) (ft : FeatureType) :
    (fdKeys (e.getDict ft)).Nodup ∧
    ∀ kv, kv ∈ e.getDict ft → validEntry ft kv.snd = true := by
  unfold EOPatch.wfb at h
  rw [Bool.and_eq_true] at h
  obtain ⟨h1, _⟩ := h
  rw [List.all_eq_true] at h1
  have hft := h1 ft (by cases ft <;> simp [allFeatureTypes])
  rw [Bool.and_eq_true] at hft
  refine ⟨of_decide_eq_true hft.1, fun kv hm => ?_⟩
  have := hft.2
  rw [List.all_eq_true] at this
  exact this kv hm

theorem wfb_bbox {e : EOPatch} (h : e.wfb = true) :
    e.bbox = .pynone ∨ ∃ b, e.bbox = .pybbox b := by
  unfold EOPatch.wfb at h
  rw [Bool.and_eq_true] at h
  obtain ⟨_, h2⟩ := h
  cases hb : e.bbox with
  | pynone => exact Or.inl rfl
  | pybbox b => exact Or.inr ⟨b, rfl⟩
  | pydict d => rw [hb] at h2; simp at h2
  | pyfdict ft d => rw [hb] at h2; simp at h2
  | pylist l => rw [hb] at h2; simp at h2
  | pyother o => rw [hb] at h2; simp at h2

/-- Claim C2, counterexample.  The claim states that merging two patches with
identical timestamp sequences treats the time-dependent namespaces as the
non-time-dependent case (equal values required, never concatenated).  In the
source, the timestamps-match test additionally requires both sequences to be
non-empty, so two patches with identical empty timestamps and the same data
value get that value concatenated along time instead. -/
theorem c2_counterexample :
    ({ EOPatch.empty with data := [("A", .array ⟨[1, 1, 1, 1], [5]⟩)] } : EOPatch).timestamp =
      ({ EOPatch.empty with data := [("A", .array ⟨[1, 1, 1, 1], [5]⟩)] } : EOPatch).timestamp ∧
    deep_eq (.array ⟨[1, 1, 1, 1], [5]⟩) (.array ⟨[1, 1, 1, 1], [5]⟩) = true ∧
    EOPatch.concatenate
      { EOPatch.empty with data := [("A", .array ⟨[1, 1, 1, 1], [5]⟩)] }
      { EOPatch.empty with data := [("A", .array ⟨[1, 1, 1, 1], [5]⟩)] } =
      .ok { EOPatch.empty with data := [("A", .array ⟨[2, 1, 1, 1], [5, 5]⟩)] } :=
  ⟨rfl, by decide, by decide⟩

/-- Claim C2, amended: for every two patches whose timestamp sequences are
identical and non-empty, merging treats every mapping namespace as the
non-time-dependent case: a feature name present in both patches with values
that are not deeply equal makes the merge fail with the merge conflict
naming the namespace and a conflicting feature, and when the merge succeeds
the shared name maps to the (equal) second value — never a concatenation. -/
theorem c2_amended (e1 e2 : EOPatch) (hw1 : e1.wfb = true) (hw2 : e2.wfb = true)
    (hne : e1.timestamp ≠ []) (heq : e1.timestamp = e2.timestamp)
    (ft : FeatureType) (hft : ft.has_dict = true)
    (k : String) (v1 v2 : Value)
    (h1 : (e1.getDict ft).lookup k = some v1)
    (h2 : (e2.getDict ft).lookup k = some v2) :
    (deep_eq v1 v2 = false →
      (∃ k2, mergeDictFT ft (concTsMatch e1 e2) (e1.getDict ft) (e2.getDict ft) =
        .error (.mergeConflict ft k2)) ∧
      ∀ q, EOPatch.concatenate e1 e2 ≠ .ok q) ∧
    (∀ q, EOPatch.concatenate e1 e2 = .ok q → (q.getDict ft).lookup k = some v2) := by
  have hne2 : e2.timestamp ≠ [] := heq ▸ hne
  have htm : concTsMatch e1 e2 = true := by
    unfold concTsMatch concTsExist
    rw [heq]
    simp [List.isEmpty_iff, hne2]
  have htd : (ft.is_time_dependent && !concTsMatch e1 e2) = false := by
    rw [htm]
    simp
  have hmem : (k, v1) ∈ commonEntries (e1.getDict ft) (e2.getDict ft) := by
    unfold commonEntries
    rw [List.mem_filter]
    exact ⟨alist_lookup_some_mem h1, by simp [h2]⟩
  constructor
  · intro hdeq
    have herr := mergeFold_err_conflict htd
      (commonEntries (e1.getDict ft) (e2.getDict ft))
      (pyDictUnion (e1.getDict ft) (e2.getDict ft))
      ⟨(k, v1), hmem, by
        show deep_eq v1 (((e2.getDict ft).lookup k).getD v1) = false
        rw [h2]
        exact hdeq⟩
    obtain ⟨k2, hk2⟩ := herr
    refine ⟨⟨k2, hk2⟩, ?_⟩
    exact concatenate_fails_of_dict_err hft hk2
  · intro q hok
    obtain ⟨m, hm, hwrap⟩ := concatenate_ok_dict hok ft hft
    have hmu : m = pyDictUnion (e1.getDict ft) (e2.getDict ft) :=
      mergeFold_eqcase_id htd _ _ _ hm
    have hnodup : (fdKeys m).Nodup := by
      rw [hmu]
      exact pyDictUnion_nodup (wfb_dict hw1 ft).1 (wfb_dict hw2 ft).1
    rw [fdWrap_inv hnodup hwrap, hmu]
    exact pyDictUnion_lookup_shared h1 h2

/-- Claim C2 witness: the amended theorem on two single-feature patches with
the same non-empty timestamp list and the same data value. -/
theorem c2_witness :
    EOPatch.concatenate
      { EOPatch.empty with timestamp := [1], data := [("A", .array ⟨[1, 1, 1, 1], [5]⟩)] }
      { EOPatch.empty with timestamp := [1], data := [("A", .array ⟨[1, 1, 1, 1], [5]⟩)] } =
      .ok { EOPatch.empty with timestamp := [1], data := [("A", .array ⟨[1, 1, 1, 1], [5]⟩)] } ∧
    (({ EOPatch.empty with timestamp := [1], data := [("A", .array ⟨[1, 1, 1, 1], [5]⟩)] } :
        EOPatch).getDict .data).lookup "A" = some (.array ⟨[1, 1, 1, 1], [5]⟩) :=
  ⟨by decide,
   (c2_amended
     { EOPatch.empty with timestamp := [1], data := [("A", .array ⟨[1, 1, 1, 1], [5]⟩)] }
     { EOPatch.empty with timestamp := [1], data := [("A", .array ⟨[1, 1, 1, 1], [5]⟩)] }
     (by decide) (by decide) (by decide) rfl .data (by decide) "A"
     (.array ⟨[1, 1, 1, 1], [5]⟩) (.array ⟨[1, 1, 1, 1], [5]⟩)
     (by decide) (by decide)).2
     { EOPatch.empty with timestamp := [1], data := [("A", .array ⟨[1, 1, 1, 1], [5]⟩)] }
     (by decide)⟩

theorem time_dep_has_dict {ft : FeatureType} (h : ft.is_time_dependent = true) :
    ft.has_dict = true := by
  cases ft <;> first | rfl | simp [FeatureType.is_time_dependent] at h

theorem commonEntries_keys_sub {d1 d2 : FDict} {k : String}
    (h : k ∈ (commonEntries d1 d2).map Prod.fst) : k ∈ fdKeys (pyDictUnion d1 d2) := by
  rw [pyDictUnion_keys]
  apply List.mem_append_left
  obtain ⟨kv, hkv, hfst⟩ := List.mem_map.mp h
  exact List.mem_map.mpr ⟨kv, (List.mem_filter.mp hkv).1, hfst⟩

/-- Claim C4: for two patches with non-empty, differing timestamp sequences
and a feature name present in both patches of a time-dependent mapping
namespace with array values: when the non-temporal dimensions match exactly,
a successful merge maps the name to the concatenation along the time axis,
whose time-axis length is the sum of the two inputs' time-axis lengths; when
they do not match, the merge of that namespace fails — with the shape error
when that name is the only shared feature of the namespace — and the whole
merge fails. -/
theorem c4_time_concatenation (e1 e2 : EOPatch)
    (hw1 : e1.wfb = true) (hw2 : e2.wfb = true)
    (hne1 : e1.timestamp ≠ []) (hne2 : e2.timestamp ≠ [])
    (hdiff : e1.timestamp ≠ e2.timestamp)
    (ft : FeatureType) (htd : ft.is_time_dependent = true)
    (k : String) (a1 a2 : NdArray)
    (h1 : (e1.getDict ft).lookup k = some (.array a1))
    (h2 : (e2.getDict ft).lookup k = some (.array a2))
    (t1 t2 : Nat) (r1 r2 : List Nat)
    (hs1 : a1.shape = t1 :: r1) (hs2 : a2.shape = t2 :: r2) :
    (r1 = r2 →
      ∀ q, EOPatch.concatenate e1 e2 = .ok q →
        (q.getDict ft).lookup k = some (.array ⟨(t1 + t2) :: r1, a1.buf ++ a2.buf⟩)) ∧
    (r1 ≠ r2 →
      (∃ e0, mergeDictFT ft (concTsMatch e1 e2) (e1.getDict ft) (e2.getDict ft) =
        .error e0) ∧
      (commonEntries (e1.getDict ft) (e2.getDict ft) = [(k, .array a1)] →
        mergeDictFT ft (concTsMatch e1 e2) (e1.getDict ft) (e2.getDict ft) =
          .error .concatShapeErr) ∧
      (∀ q, EOPatch.concatenate e1 e2 ≠ .ok q)) := by
  have hft : ft.has_dict = true := time_dep_has_dict htd
  have htm : concTsMatch e1 e2 = false := by
    unfold concTsMatch
    rw [show (e1.timestamp == e2.timestamp) = false from beq_eq_false_iff_ne.mpr hdiff]
    simp
  have htd2 : (ft.is_time_dependent && !concTsMatch e1 e2) = true := by
    rw [htd, htm]
    rfl
  have hmem : (k, Value.array a1) ∈ commonEntries (e1.getDict ft) (e2.getDict ft) := by
    unfold commonEntries
    rw [List.mem_filter]
    exact ⟨alist_lookup_some_mem h1, by simp [h2]⟩
  constructor
  · intro hr q hok
    have hcd : EOPatch.concatenate_data (.array a1) (.array a2) =
        .ok (.array ⟨(t1 + t2) :: r1, a1.buf ++ a2.buf⟩) := by
      simp only [EOPatch.concatenate_data, hs1, hs2, List.tail_cons]
      rw [if_neg (by simp [hr])]
    obtain ⟨m, hm, hwrap⟩ := concatenate_ok_dict hok ft hft
    have hcommon_nodup : ((commonEntries (e1.getDict ft) (e2.getDict ft)).map Prod.fst).Nodup :=
      ((List.filter_sublist (e1.getDict ft)).map Prod.fst).nodup (wfb_dict hw1 ft).1
    obtain ⟨c, hc, hlook⟩ := mergeFold_mem_concat htd2 _ _ m hcommon_nodup hm k (.array a1) hmem
    rw [h2] at hc
    simp only [Option.getD_some] at hc
    rw [hcd] at hc
    have hceq : c = .array ⟨(t1 + t2) :: r1, a1.buf ++ a2.buf⟩ := (Except.ok.inj hc).symm
    have hkeys : fdKeys m = fdKeys (pyDictUnion (e1.getDict ft) (e2.getDict ft)) :=
      mergeFold_keys ft (concTsMatch e1 e2) (e2.getDict ft) _ _ m
        (fun k2 hk2 => commonEntries_keys_sub hk2) hm
    have hnodup : (fdKeys m).Nodup := by
      rw [hkeys]
      exact pyDictUnion_nodup (wfb_dict hw1 ft).1 (wfb_dict hw2 ft).1
    rw [fdWrap_inv hnodup hwrap]
    rw [hlook, hceq]
  · intro hr
    have hcd : EOPatch.concatenate_data (.array a1) (.array a2) = .error .concatShapeErr := by
      simp only [EOPatch.concatenate_data, hs1, hs2, List.tail_cons]
      rw [if_pos hr]
    have hstep : mergeStep ft (concTsMatch e1 e2) (e2.getDict ft)
        (pyDictUnion (e1.getDict ft) (e2.getDict ft)) (k, .array a1) =
        .error .concatShapeErr := by
      unfold mergeStep
      rw [if_pos htd2]
      show (EOPatch.concatenate_data (.array a1) (((e2.getDict ft).lookup k).getD (.array a1)) >>=
        fun c => (Except.ok (fdInsert (pyDictUnion (e1.getDict ft) (e2.getDict ft)) k c)
          : Except EOError FDict)) = .error .concatShapeErr
      rw [h2]
      simp only [Option.getD_some]
      rw [hcd]
      rfl
    obtain ⟨e0, herr⟩ := mergeFold_err_concat htd2 _
      (pyDictUnion (e1.getDict ft) (e2.getDict ft))
      ⟨(k, .array a1), .concatShapeErr, hmem, by
        show EOPatch.concatenate_data (.array a1) (((e2.getDict ft).lookup k).getD (.array a1)) =
          .error .concatShapeErr
        rw [h2]
        simp only [Option.getD_some]
        exact hcd⟩
    refine ⟨⟨e0, herr⟩, ?_, concatenate_fails_of_dict_err hft herr⟩
    intro hsingle
    unfold mergeDictFT
    rw [hsingle, List.foldlM_cons, hstep]
    rfl

/-- Claim C4 witness: two single-feature patches with differing one-element
timestamps whose data arrays have matching non-temporal dimensions; the
merged feature is the time-axis concatenation. -/
theorem c4_witness :
    (({ EOPatch.empty with
      timestamp := [1, 2],
      data := [("A", Value.array ⟨[2, 1, 1, 1], [1, 2]⟩)] } : EOPatch).getDict
        .data).lookup "A" =
      some (.array ⟨(1 + 1) :: [1, 1, 1], ([1] : List Int) ++ [2]⟩) :=
  (c4_time_concatenation
    { EOPatch.empty with timestamp := [1], data := [("A", .array ⟨[1, 1, 1, 1], [1]⟩)] }
    { EOPatch.empty with timestamp := [2], data := [("A", .array ⟨[1, 1, 1, 1], [2]⟩)] }
    (by decide) (by decide) (by decide) (by decide) (by decide) .data (by decide)
    "A" ⟨[1, 1, 1, 1], [1]⟩ ⟨[1, 1, 1, 1], [2]⟩ (by decide) (by decide)
    1 1 [1, 1, 1] [1, 1, 1] rfl rfl).1 rfl
    { EOPatch.empty with
      timestamp := [1, 2],
      data := [("A", Value.array ⟨[2, 1, 1, 1], [1, 2]⟩)] }
    (by decide)

theorem mergeDictFT_disjoint {ft : FeatureType} {ts : Bool} {d1 d2 : FDict}
    (hdisj : ∀ k, k ∈ fdKeys d1 → k ∉ fdKeys d2) :
    mergeDictFT ft ts d1 d2 = .ok (d1 ++ d2) := by
  unfold mergeDictFT
  rw [commonEntries_nil_of_disjoint hdisj, List.foldlM_nil,
    pyDictUnion_disjoint_eq hdisj]
  rfl

theorem fdictDeepEq_append_swap {d1 d2 : FDict}
    (hnd : ((d1 ++ d2).map Prod.fst).Nodup) :
    fdictDeepEq (d1 ++ d2) (d2 ++ d1) = true := by
  unfold fdictDeepEq
  rw [Bool.and_eq_true]
  constructor
  · simp [List.length_append, Nat.add_comm]
  · rw [List.all_eq_true]
    intro kv hm
    have hnd2 : ((d2 ++ d1).map Prod.fst).Nodup := by
      rw [List.map_append] at hnd ⊢
      exact List.nodup_append_comm.mp hnd
    have hmm : kv ∈ d2 ++ d1 := by
      rcases List.mem_append.mp hm with h | h
      · exact List.mem_append_right _ h
      · exact List.mem_append_left _ h
    have hkv : kv = (kv.fst, kv.snd) := rfl
    have hlook : (d2 ++ d1).lookup kv.fst = some kv.snd :=
      alist_mem_lookup hnd2 (hkv ▸ hmm)
    rw [hlook]
    simp [deep_eq]

theorem mergeSingleton_bbox_comm {x1 x2 y1 y2 : PyVal}
    (hx1 : x1 = .pynone ∨ ∃ b, x1 = .pybbox b)
    (hx2 : x2 = .pynone ∨ ∃ b, x2 = .pybbox b)
    (h1 : mergeSingleton .bbox x1 x2 = .ok y1)
    (h2 : mergeSingleton .bbox x2 x1 = .ok y2) : pyDeepEq y1 y2 = true := by
  rcases hx1 with rfl | ⟨b1, rfl⟩ <;> rcases hx2 with rfl | ⟨b2, rfl⟩
  · rw [show y1 = PyVal.pynone from (Except.ok.inj h1).symm,
      show y2 = PyVal.pynone from (Except.ok.inj h2).symm]
    rfl
  · rw [show y1 = PyVal.pybbox b2 from (Except.ok.inj h1).symm,
      show y2 = PyVal.pybbox b2 from (Except.ok.inj h2).symm]
    simp [pyDeepEq]
  · rw [show y1 = PyVal.pybbox b1 from (Except.ok.inj h1).symm,
      show y2 = PyVal.pybbox b1 from (Except.ok.inj h2).symm]
    simp [pyDeepEq]
  · by_cases hb : b1 = b2
    · subst hb
      have hc : (!(PyVal.pybbox b1).truthy ||
          pyDeepEq (.pybbox b1) (.pybbox b1)) = true := by
        simp [PyVal.truthy, pyDeepEq]
      unfold mergeSingleton at h1 h2
      rw [if_pos hc] at h1 h2
      rw [show y1 = PyVal.pybbox b1 from (Except.ok.inj h1).symm,
        show y2 = PyVal.pybbox b1 from (Except.ok.inj h2).symm]
      simp [pyDeepEq]
    · exfalso
      unfold mergeSingleton at h1
      rw [if_neg (by simp [PyVal.truthy, pyDeepEq, beq_eq_false_iff_ne.mpr hb])] at h1
      rw [if_neg (by simp [PyVal.truthy])] at h1
      exact absurd h1 (by simp)

theorem concat_ts_comm {e1 e2 : EOPatch}
    (hts : e1.timestamp = e2.timestamp ∨ e1.timestamp = [] ∨ e2.timestamp = []) :
    (if concTsExist e1 e2 && !concTsMatch e1 e2 then e1.timestamp ++ e2.timestamp
     else if e1.timestamp.isEmpty || e1.timestamp == e2.timestamp then e2.timestamp
     else e1.timestamp) =
    (if concTsExist e2 e1 && !concTsMatch e2 e1 then e2.timestamp ++ e1.timestamp
     else if e2.timestamp.isEmpty || e2.timestamp == e1.timestamp then e1.timestamp
     else e2.timestamp) := by
  rcases hts with heq | h1e | h2e
  · simp [concTsMatch, concTsExist, heq]
  · by_cases h2e : e2.timestamp = []
    · simp [concTsMatch, concTsExist, h1e, h2e]
    · simp [concTsMatch, concTsExist, h1e, List.isEmpty_iff, h2e,
        show (e2.timestamp == []) = false from beq_eq_false_iff_ne.mpr h2e]
  · by_cases h1e : e1.timestamp = []
    · simp [concTsMatch, concTsExist, h1e, h2e]
    · simp [concTsMatch, concTsExist, h2e, List.isEmpty_iff, h1e,
        show (e1.timestamp == []) = false from beq_eq_false_iff_ne.mpr h1e]

/-- Claim C7: merge is commutative for disjoint feature sets.  For all
well-formed patches sharing no feature name in any namespace, with equal
timestamps or at least one timestamp sequence empty, any two successful
merges of the two orders are equal under patch equality (deep equality of
every namespace). -/
theorem c7_merge_commutative (e1 e2 : EOPatch)
    (hw1 : e1.wfb = true) (hw2 : e2.wfb = true)
    (hdisj : ∀ ft k, k ∈ fdKeys (e1.getDict ft) → k ∉ fdKeys (e2.getDict ft))
    (hts : e1.timestamp = e2.timestamp ∨ e1.timestamp = [] ∨ e2.timestamp = [])
    (q1 q2 : EOPatch)
    (h1 : EOPatch.concatenate e1 e2 = .ok q1)
    (h2 : EOPatch.concatenate e2 e1 = .ok q2) :
    q1.deepEqB q2 = true := by
  have hq1 : ∀ ft, ft.has_dict = true →
      q1.getDict ft = e1.getDict ft ++ e2.getDict ft := by
    intro ft hft
    obtain ⟨m, hm, hwrap⟩ := concatenate_ok_dict h1 ft hft
    rw [mergeDictFT_disjoint (hdisj ft)] at hm
    have hmeq : m = e1.getDict ft ++ e2.getDict ft := (Except.ok.inj hm).symm
    have hnodup : (fdKeys m).Nodup := by
      rw [hmeq]
      unfold fdKeys
      rw [List.map_append]
      exact List.Nodup.append (wfb_dict hw1 ft).1 (wfb_dict hw2 ft).1
        (fun k hk1 hk2 => hdisj ft k hk1 hk2)
    rw [fdWrap_inv hnodup hwrap, hmeq]
  have hdisj2 : ∀ ft k, k ∈ fdKeys (e2.getDict ft) → k ∉ fdKeys (e1.getDict ft) :=
    fun ft k hk2 hk1 => hdisj ft k hk1 hk2
  have hq2 : ∀ ft, ft.has_dict = true →
      q2.getDict ft = e2.getDict ft ++ e1.getDict ft := by
    intro ft hft
    obtain ⟨m, hm, hwrap⟩ := concatenate_ok_dict h2 ft hft
    rw [mergeDictFT_disjoint (hdisj2 ft)] at hm
    have hmeq : m = e2.getDict ft ++ e1.getDict ft := (Except.ok.inj hm).symm
    have hnodup : (fdKeys m).Nodup := by
      rw [hmeq]
      unfold fdKeys
      rw [List.map_append]
      exact List.Nodup.append (wfb_dict hw2 ft).1 (wfb_dict hw1 ft).1
        (fun k hk2 hk1 => hdisj ft k hk1 hk2)
    rw [fdWrap_inv hnodup hwrap, hmeq]
  have hdeq : ∀ ft, ft.has_dict = true →
      fdictDeepEq (q1.getDict ft) (q2.getDict ft) = true := by
    intro ft hft
    rw [hq1 ft hft, hq2 ft hft]
    apply fdictDeepEq_append_swap
    rw [List.map_append]
    exact List.Nodup.append (wfb_dict hw1 ft).1 (wfb_dict hw2 ft).1
      (fun k hk1 hk2 => hdisj ft k hk1 hk2)
  obtain ⟨_, _, _, _, _, _, _, _, _, _, _, ⟨bb1, hbb1, hq1bb⟩, hts1⟩ :=
    concatenate_ok_parts h1
  obtain ⟨_, _, _, _, _, _, _, _, _, _, _, ⟨bb2, hbb2, hq2bb⟩, hts2⟩ :=
    concatenate_ok_parts h2
  have hbbeq : pyDeepEq q1.bbox q2.bbox = true := by
    rw [hq1bb, hq2bb]
    exact mergeSingleton_bbox_comm (wfb_bbox hw1) (wfb_bbox hw2) hbb1 hbb2
  have htseq : q1.timestamp = q2.timestamp := by
    rw [hts1, hts2]
    exact concat_ts_comm hts
  unfold EOPatch.deepEqB allFeatureTypes
  simp only [List.all_cons, List.all_nil, Bool.and_eq_true, Bool.and_true]
  refine ⟨?_, ?_, ?_, ?_, ?_, ?_, ?_, ?_, ?_, ?_, ?_, ?_, ?_⟩
  · exact hdeq .data rfl
  · exact hdeq .mask rfl
  · exact hdeq .scalar rfl
  · exact hdeq .label rfl
  · exact hdeq .vector rfl
  · exact hdeq .data_timeless rfl
  · exact hdeq .mask_timeless rfl
  · exact hdeq .scalar_timeless rfl
  · exact hdeq .label_timeless rfl
  · exact hdeq .vector_timeless rfl
  · exact hdeq .meta_info rfl
  · exact hbbeq
  · show (q1.timestamp == q2.timestamp) = true
    rw [htseq]
    simp

/-- Claim C7 witness: two disjoint single-feature patches with equal
timestamps, merged in both orders. -/
theorem c7_witness :
    EOPatch.concatenate
      { EOPatch.empty with timestamp := [1], data := [("A", .array ⟨[1, 1, 1, 1], [1]⟩)] }
      { EOPatch.empty with timestamp := [1], mask := [("B", .array ⟨[1, 1, 1, 1], [2]⟩)] } =
      .ok { EOPatch.empty with
            timestamp := [1]
            data := [("A", .array ⟨[1, 1, 1, 1], [1]⟩)]
            mask := [("B", .array ⟨[1, 1, 1, 1], [2]⟩)] } ∧
    EOPatch.concatenate
      { EOPatch.empty with timestamp := [1], mask := [("B", .array ⟨[1, 1, 1, 1], [2]⟩)] }
      { EOPatch.empty with timestamp := [1], data := [("A", .array ⟨[1, 1, 1, 1], [1]⟩)] } =
      .ok { EOPatch.empty with
            timestamp := [1]
            data := [("A", .array ⟨[1, 1, 1, 1], [1]⟩)]
            mask := [("B", .array ⟨[1, 1, 1, 1], [2]⟩)] } ∧
    ({ EOPatch.empty with
       timestamp := [1]
       data := [("A", .array ⟨[1, 1, 1, 1], [1]⟩)]
       mask := [("B", .array ⟨[1, 1, 1, 1], [2]⟩)] } : EOPatch).deepEqB
      { EOPatch.empty with
        timestamp := [1]
        data := [("A", .array ⟨[1, 1, 1, 1], [1]⟩)]
        mask := [("B", .array ⟨[1, 1, 1, 1], [2]⟩)] } = true :=
  ⟨by decide, by decide,
   c7_merge_commutative
     { EOPatch.empty with timestamp := [1], data := [("A", .array ⟨[1, 1, 1, 1], [1]⟩)] }
     { EOPatch.empty with timestamp := [1], mask := [("B", .array ⟨[1, 1, 1, 1], [2]⟩)] }
     (by decide) (by decide)
     (by intro ft k hk1 hk2; cases ft <;>
       simp [fdKeys, EOPatch.getDict, EOPatch.empty] at hk1 hk2)
     (Or.inl rfl)
     { EOPatch.empty with
       timestamp := [1]
       data := [("A", .array ⟨[1, 1, 1, 1], [1]⟩)]
       mask := [("B", .array ⟨[1, 1, 1, 1], [2]⟩)] }
     { EOPatch.empty with
       timestamp := [1]
       data := [("A", .array ⟨[1, 1, 1, 1], [1]⟩)]
       mask := [("B", .array ⟨[1, 1, 1, 1], [2]⟩)] }
     (by decide) (by decide)⟩

theorem nat_contains_iff {l : List Nat} {x : Nat} : l.contains x = true ↔ x ∈ l :=
  List.elem_iff

theorem removeIdxs_mem_iff {ts keep : List Nat} (hnd : ts.Nodup) {i : Nat}
    (hi : i < ts.length) :
    (i ∈ (ts.dedup.filter (fun t => !keep.contains t)).map (fun t => ts.indexOf t)) ↔
      ¬ keep.contains (ts.getD i 0) = true := by
  rw [List.dedup_eq_self.mpr hnd]
  constructor
  · rintro hmem
    obtain ⟨t, htf, hidx⟩ := List.mem_map.mp hmem
    obtain ⟨htm, hpred⟩ := List.mem_filter.mp htf
    have hlt : ts.indexOf t < ts.length := List.indexOf_lt_length.mpr htm
    have hget : ts.getD (ts.indexOf t) 0 = t := by
      rw [List.getD_eq_getElem ts 0 hlt]
      exact List.getElem_indexOf hlt
    rw [← hidx, hget]
    intro hc
    rw [hc] at hpred
    simp at hpred
  · intro hnc
    apply List.mem_map.mpr
    refine ⟨ts.getD i 0, ?_, ?_⟩
    · apply List.mem_filter.mpr
      constructor
      · rw [List.getD_eq_getElem ts 0 hi]
        exact List.getElem_mem hi
      · cases hkc : keep.contains (ts.getD i 0) with
        | true => exact absurd hkc hnc
        | false => simp
    · rw [List.getD_eq_getElem ts 0 hi]
      exact List.indexOf_getElem hnd i hi

theorem not_removeIdxs_eq {ts keep : List Nat} (hnd : ts.Nodup) {i : Nat}
    (hilt : i < ts.length) :
    (!((ts.dedup.filter (fun t => !keep.contains t)).map
        (fun t => ts.indexOf t)).contains i) = keep.contains (ts.getD i 0) := by
  by_cases hk : keep.contains (ts.getD i 0) = true
  · rw [hk]
    cases hcc : ((ts.dedup.filter (fun t => !keep.contains t)).map
        (fun t => ts.indexOf t)).contains i with
    | false => rfl
    | true =>
      exact absurd hk ((removeIdxs_mem_iff hnd hilt).mp (nat_contains_iff.mp hcc))
  · have hkf : keep.contains (ts.getD i 0) = false := by
      cases hkk : keep.contains (ts.getD i 0) with
      | true => exact absurd hkk hk
      | false => rfl
    rw [hkf]
    rw [nat_contains_iff.mpr ((removeIdxs_mem_iff hnd hilt).mpr hk)]
    rfl

theorem goodIdxs_eq_of_nodup {ts keep : List Nat} (hnd : ts.Nodup) :
    goodIdxsOf ts (ts.dedup.filter (fun t => !keep.contains t)) =
      (List.range ts.length).filter (fun i => keep.contains (ts.getD i 0)) := by
  unfold goodIdxsOf
  apply List.filter_congr
  intro i hi
  exact not_removeIdxs_eq hnd (List.mem_range.mp hi)

theorem enumFrom_filter_map_snd (p : Nat → Bool) (q : Nat → Bool) :
    ∀ (ts : List Nat) (n : Nat),
    (∀ i, i < ts.length → p (n + i) = q (ts.getD i 0)) →
    ((ts.enumFrom n).filter (fun x => p x.fst)).map Prod.snd = ts.filter q := by
  intro ts
  induction ts with
  | nil =>
    intro n _
    rfl
  | cons t rest ih =>
    intro n hpt
    have h0 : p n = q t := by
      have := hpt 0 (by simp)
      simpa using this
    have hshift : ∀ i, i < rest.length → p ((n + 1) + i) = q (rest.getD i 0) := by
      intro i hi
      have := hpt (i + 1) (by simp; omega)
      rw [show n + (i + 1) = (n + 1) + i from by omega] at this
      simpa [List.getD_cons_succ] using this
    show (((n, t) :: rest.enumFrom (n + 1)).filter (fun x => p x.fst)).map Prod.snd =
      (t :: rest).filter q
    by_cases hq : q t = true
    · rw [List.filter_cons_of_pos (by simpa [h0] using hq),
        List.filter_cons_of_pos hq, List.map_cons, ih (n + 1) hshift]
    · have hqf : q t = false := by
        cases hqq : q t with
        | true => exact absurd hqq hq
        | false => rfl
      rw [List.filter_cons_of_neg (by simp [h0, hqf]),
        List.filter_cons_of_neg (by simp [hqf]), ih (n + 1) hshift]

theorem goodTimestamps_eq_of_nodup {ts keep : List Nat} (hnd : ts.Nodup) :
    ((ts.enum.filter (fun x => !((ts.dedup.filter (fun t => !keep.contains t)).map
        (fun t => ts.indexOf t)).contains x.fst)).map Prod.snd) =
      ts.filter (fun t => keep.contains t) := by
  exact enumFrom_filter_map_snd
    (fun i => !((ts.dedup.filter (fun t => !keep.contains t)).map
      (fun t => ts.indexOf t)).contains i)
    (fun t => keep.contains t) ts 0
    (fun i hi => by rw [Nat.zero_add]; exact not_removeIdxs_eq hnd hi)

theorem consolidateStep_ok_cases {good : List Nat} {ft : FeatureType} {acc : FDict}
    {kv : String × Value} {acc2 : FDict}
    (h : consolidateStep good ft acc kv = .ok acc2) :
    ∃ v2, selectIdxs good kv.snd = .ok v2 ∧ acc2 = fdInsert acc kv.fst v2 := by
  unfold consolidateStep at h
  cases hs : selectIdxs good kv.snd with
  | error e =>
    rw [hs] at h
    exact absurd h (by simp [Bind.bind, Except.bind])
  | ok v2 =>
    rw [hs] at h
    have h2 : fdSetItem ft acc kv.fst v2 = .ok acc2 := h
    unfold fdSetItem at h2
    by_cases hcond : ft.ndim ≠ 0 ∧ validEntry ft v2 = false
    · rw [if_pos hcond] at h2
      exact absurd h2 (by simp)
    · rw [if_neg hcond] at h2
      exact ⟨v2, rfl, (Except.ok.inj h2).symm⟩

theorem consolidateFold_ok (good : List Nat) (ft : FeatureType) :
    ∀ (l acc : FDict),
    (∀ kv, kv ∈ l → ∃ v2, selectIdxs good kv.snd = .ok v2 ∧ validEntry ft v2 = true) →
    ∃ m, l.foldlM (consolidateStep good ft) acc = .ok m := by
  intro l
  induction l with
  | nil =>
    intro acc _
    exact ⟨acc, rfl⟩
  | cons kv0 rest ih =>
    intro acc hsel
    obtain ⟨v2, hs, hv⟩ := hsel kv0 (List.mem_cons_self _ _)
    have hstep : consolidateStep good ft acc kv0 = .ok (fdInsert acc kv0.fst v2) := by
      unfold consolidateStep
      rw [hs]
      show fdSetItem ft acc kv0.fst v2 = .ok (fdInsert acc kv0.fst v2)
      exact fdSetItem_ok_of_valid ft acc kv0.fst hv
    obtain ⟨m, hm⟩ := ih (fdInsert acc kv0.fst v2)
      (fun kv hmem => hsel kv (List.mem_cons_of_mem _ hmem))
    refine ⟨m, ?_⟩
    rw [List.foldlM_cons, hstep]
    exact hm

theorem consolidateFold_preserve (good : List Nat) (ft : FeatureType) :
    ∀ (l acc m : FDict) (k : String), k ∉ l.map Prod.fst →
    l.foldlM (consolidateStep good ft) acc = .ok m → m.lookup k = acc.lookup k := by
  intro l
  induction l with
  | nil =>
    intro acc m k _ h
    simp [List.foldlM_nil, pure, Except.pure] at h
    rw [h]
  | cons kv rest ih =>
    intro acc m k hk h
    rw [List.foldlM_cons, exceptBind_ok] at h
    obtain ⟨acc1, hstep, hrest⟩ := h
    have hne : k ≠ kv.fst := fun hkk => hk (by simp [hkk])
    have hk2 : k ∉ rest.map Prod.fst := fun hm => hk (by simp [hm])
    rw [ih acc1 m k hk2 hrest]
    obtain ⟨v2, _, hacc⟩ := consolidateStep_ok_cases hstep
    rw [hacc]
    exact fdInsert_lookup_ne acc _ hne

theorem consolidateFold_keys (good : List Nat) (ft : FeatureType) :
    ∀ (l acc m : FDict), (∀ k, k ∈ l.map Prod.fst → k ∈ acc.map Prod.fst) →
    l.foldlM (consolidateStep good ft) acc = .ok m → fdKeys m = fdKeys acc := by
  intro l
  induction l with
  | nil =>
    intro acc m _ h
    simp [List.foldlM_nil, pure, Except.pure] at h
    rw [h]
  | cons kv rest ih =>
    intro acc m hsub h
    rw [List.foldlM_cons, exceptBind_ok] at h
    obtain ⟨acc1, hstep, hrest⟩ := h
    obtain ⟨v2, _, hacc⟩ := consolidateStep_ok_cases hstep
    have hmem : kv.fst ∈ acc.map Prod.fst := hsub kv.fst (by simp)
    have hsome : (acc.lookup kv.fst).isSome := by
      cases hl : acc.lookup kv.fst with
      | none => exact absurd ((alist_lookup_none_iff acc kv.fst).mp hl) (by simp [hmem])
      | some w => rfl
    have hkeys : fdKeys acc1 = fdKeys acc := by
      rw [hacc]
      exact fdInsert_keys_present _ hsome
    rw [← hkeys]
    apply ih acc1 m _ hrest
    intro k2 hk2
    rw [show acc1.map Prod.fst = fdKeys acc1 from rfl, hkeys]
    exact hsub k2 (by simp [hk2])

theorem consolidateFold_mem (good : List Nat) (ft : FeatureType) :
    ∀ (l acc m : FDict), (l.map Prod.fst).Nodup →
    l.foldlM (consolidateStep good ft) acc = .ok m →
    ∀ k v, (k, v) ∈ l →
    ∃ v2, selectIdxs good v = .ok v2 ∧ m.lookup k = some v2 := by
  intro l
  induction l with
  | nil =>
    intro acc m _ _ k v hm
    simp at hm
  | cons kv rest ih =>
    intro acc m hnd h k v hm
    rw [List.foldlM_cons, exceptBind_ok] at h
    obtain ⟨acc1, hstep, hrest⟩ := h
    simp only [List.map_cons, List.nodup_cons] at hnd
    rcases List.mem_cons.mp hm with heq | hmem
    · obtain ⟨hk, hv⟩ := Prod.mk.injEq .. ▸ heq.symm
      obtain ⟨v2, hs, hacc⟩ := consolidateStep_ok_cases hstep
      refine ⟨v2, by rw [hv] at hs; exact hs, ?_⟩
      have hknotin : k ∉ rest.map Prod.fst := hk ▸ hnd.1
      rw [consolidateFold_preserve good ft rest acc1 m k hknotin hrest, hacc, hk]
      exact fdInsert_lookup_self _ _ _
    · exact ih acc1 m hnd.2 hrest k v hmem

theorem exceptOkBind {ε α β : Type} (a : α) (f : α → Except ε β) :
    ((Except.ok a : Except ε α) >>= f) = f a := rfl

theorem selectIdxs_array {good : List Nat} {a : NdArray} {n : Nat} {r : List Nat}
    (hs : a.shape = n :: r) (hall : ∀ i, i ∈ good → i < n) :
    selectIdxs good (.array a) = .ok (.array ⟨good.length :: r,
      (good.map (fun i => (a.buf.drop (i * r.prod)).take r.prod)).flatten⟩) := by
  simp only [selectIdxs, hs]
  rw [if_pos (List.all_eq_true.mpr (fun i hi => by simpa using hall i hi))]

theorem selectIdxs_vlist {good : List Nat} {l : List Nat} {n : Nat}
    (hlen : l.length = n) (hall : ∀ i, i ∈ good → i < n) :
    selectIdxs good (.vlist l) = .ok (.vlist (good.map (fun i => l.getD i 0))) := by
  simp only [selectIdxs]
  rw [if_pos (List.all_eq_true.mpr (fun i hi => by simp [hlen]; exact hall i hi))]

theorem consolidateDict_full (good : List Nat) (ft : FeatureType) (d : FDict)
    (hnd : (fdKeys d).Nodup)
    (hsel : ∀ kv, kv ∈ d →
      ∃ v2, selectIdxs good kv.snd = .ok v2 ∧ validEntry ft v2 = true) :
    ∃ m, consolidateDict good ft d = .ok m ∧ fdKeys m = fdKeys d ∧
      (∀ k v, d.lookup k = some v →
        ∃ v2, selectIdxs good v = .ok v2 ∧ m.lookup k = some v2) := by
  obtain ⟨m, hm⟩ := consolidateFold_ok good ft d d hsel
  refine ⟨m, hm, consolidateFold_keys good ft d d m (fun k hk => hk) hm, ?_⟩
  intro k v hl
  exact consolidateFold_mem good ft d d m hnd hm k v (alist_lookup_some_mem hl)

theorem consolidateFtFold (good : List Nat) (e : EOPatch) (d1 d2 d3 d4 d5 : FDict)
    (h1 : consolidateDict good .data (e.getDict .data) = .ok d1)
    (h2 : consolidateDict good .mask (e.getDict .mask) = .ok d2)
    (h3 : consolidateDict good .scalar (e.getDict .scalar) = .ok d3)
    (h4 : consolidateDict good .label (e.getDict .label) = .ok d4)
    (h5 : consolidateDict good .vector (e.getDict .vector) = .ok d5) :
    ([FeatureType.data, .mask, .scalar, .label, .vector]).foldlM
      (fun ep ft => do
        let d ← consolidateDict good ft (ep.getDict ft)
        (Except.ok (ep.setDict ft d) : Except EOError EOPatch)) e =
    .ok { e with data := d1, mask := d2, scalar := d3, label := d4, vector := d5 } := by
  simp only [List.foldlM_cons, List.foldlM_nil]
  rw [h1]
  simp only [exceptOkBind]
  rw [show (e.setDict .data d1).getDict .mask = e.getDict .mask from rfl, h2]
  simp only [exceptOkBind]
  rw [show ((e.setDict .data d1).setDict .mask d2).getDict .scalar =
    e.getDict .scalar from rfl, h3]
  simp only [exceptOkBind]
  rw [show (((e.setDict .data d1).setDict .mask d2).setDict .scalar d3).getDict .label =
    e.getDict .label from rfl, h4]
  simp only [exceptOkBind]
  rw [show ((((e.setDict .data d1).setDict .mask d2).setDict .scalar d3).setDict
    .label d4).getDict .vector = e.getDict .vector from rfl, h5]
  simp only [exceptOkBind]
  rfl

theorem consolidateFtFold2 (good : List Nat) (e : EOPatch) (d1 d2 d3 d4 d5 : FDict)
    (h1 : consolidateDict good .data (e.getDict .data) = .ok d1)
    (h2 : consolidateDict good .mask (e.getDict .mask) = .ok d2)
    (h3 : consolidateDict good .scalar (e.getDict .scalar) = .ok d3)
    (h4 : consolidateDict good .label (e.getDict .label) = .ok d4)
    (h5 : consolidateDict good .vector (e.getDict .vector) = .ok d5) :
    ((allFeatureTypes.filter (fun ft => ft.is_time_dependent)).foldlM
      (fun ep ft => do
        let d ← consolidateDict good ft (ep.getDict ft)
        (Except.ok (ep.setDict ft d) : Except EOError EOPatch)) e) =
    .ok { e with data := d1, mask := d2, scalar := d3, label := d4, vector := d5 } := by
  show (([FeatureType.data, .mask, .scalar, .label, .vector]).foldlM
      (fun ep ft => do
        let d ← consolidateDict good ft (ep.getDict ft)
        (Except.ok (ep.setDict ft d) : Except EOError EOPatch)) e) = _
  exact consolidateFtFold good e d1 d2 d3 d4 d5 h1 h2 h3 h4 h5

/-- Claim C8, amended: for every patch whose timestamp sequence has no
duplicate dates (the source keys removal on the first occurrence of each
date, so duplicated dates are only partially removed), consolidation removes
exactly the timestamps absent from the keep list, drops exactly the
corresponding leading-axis indices from every array entry and list entry of
every time-dependent namespace, keeps the remaining timestamps in their
original relative order, returns the removed set, and leaves every other
namespace untouched. -/
theorem c8_amended (e : EOPatch) (keep : List Nat)
    (hw : e.wfb = true) (hnd : e.timestamp.Nodup)
    (halign : ∀ ft, ft.is_time_dependent = true → ∀ kv, kv ∈ e.getDict ft →
      leadingAligned e.timestamp.length kv.snd = true) :
    ∃ e2 rem, e.consolidate_timestamps keep = .ok (e2, rem) ∧
      e2.timestamp = e.timestamp.filter (fun t => keep.contains t) ∧
      rem = e.timestamp.filter (fun t => !keep.contains t) ∧
      (∀ t, t ∈ rem ↔ t ∈ e.timestamp ∧ ¬ t ∈ keep) ∧
      (∀ ft, ft.is_time_dependent = true →
        fdKeys (e2.getDict ft) = fdKeys (e.getDict ft) ∧
        (∀ k a r, (e.getDict ft).lookup k = some (.array a) →
          a.shape = e.timestamp.length :: r →
          (e2.getDict ft).lookup k = some (.array
            ⟨((List.range e.timestamp.length).filter
                (fun i => keep.contains (e.timestamp.getD i 0))).length :: r,
              (((List.range e.timestamp.length).filter
                (fun i => keep.contains (e.timestamp.getD i 0))).map
                (fun i => (a.buf.drop (i * r.prod)).take r.prod)).flatten⟩)) ∧
        (∀ k l, (e.getDict ft).lookup k = some (.vlist l) →
          l.length = e.timestamp.length →
          (e2.getDict ft).lookup k = some (.vlist
            (((List.range e.timestamp.length).filter
              (fun i => keep.contains (e.timestamp.getD i 0))).map
              (fun i => l.getD i 0))))) ∧
      (∀ ft, ft.is_time_dependent = false → e2.getDict ft = e.getDict ft) ∧
      e2.bbox = e.bbox := by
  have hgood : goodIdxsOf e.timestamp
      (e.timestamp.dedup.filter (fun t => !keep.contains t)) =
      (List.range e.timestamp.length).filter
        (fun i => keep.contains (e.timestamp.getD i 0)) :=
    goodIdxs_eq_of_nodup hnd
  have hbound : ∀ i, i ∈ (List.range e.timestamp.length).filter
      (fun i => keep.contains (e.timestamp.getD i 0)) → i < e.timestamp.length :=
    fun i hi => List.mem_range.mp (List.mem_filter.mp hi).1
  have hboundg : ∀ i, i ∈ goodIdxsOf e.timestamp
      (e.timestamp.dedup.filter (fun t => !keep.contains t)) → i < e.timestamp.length := by
    rw [hgood]
    exact hbound
  have hsel : ∀ ft, ft.is_time_dependent = true → ∀ kv, kv ∈ e.getDict ft →
      ∃ v2, selectIdxs (goodIdxsOf e.timestamp
        (e.timestamp.dedup.filter (fun t => !keep.contains t))) kv.snd = .ok v2 ∧
        validEntry ft v2 = true := by
    intro ft htdep kv hm
    have hal := halign ft htdep kv hm
    have hval := (wfb_dict hw ft).2 kv hm
    cases hv : kv.snd with
    | array a =>
      rw [hv] at hal hval
      cases hsh : a.shape with
      | nil =>
        simp only [leadingAligned, hsh] at hal
        exact absurd hal (by simp)
      | cons t r =>
        simp only [leadingAligned, hsh] at hal
        have ht : t = e.timestamp.length := of_decide_eq_true hal
        refine ⟨_, selectIdxs_array (by rw [hsh, ht]) hboundg, ?_⟩
        unfold validEntry at hval ⊢
        by_cases hnz : ft.ndim = 0
        · rw [if_pos hnz]
        · rw [if_neg hnz] at hval ⊢
          simp only [List.length_cons] at hval ⊢
          rw [hsh] at hval
          simpa using hval
    | vlist l =>
      rw [hv] at hal hval
      simp only [leadingAligned] at hal
      have hlen : l.length = e.timestamp.length := of_decide_eq_true hal
      have hnz : ft.ndim = 0 := by
        by_contra hnz
        unfold validEntry at hval
        rw [if_neg hnz] at hval
        simp at hval
      refine ⟨_, selectIdxs_vlist hlen hboundg, ?_⟩
      unfold validEntry
      rw [if_pos hnz]
    | obj o =>
      rw [hv] at hval
      exact ⟨.obj o, rfl, hval⟩
  obtain ⟨dA, hdA, hkA, hlA⟩ := consolidateDict_full _ .data (e.getDict .data)
    (wfb_dict hw .data).1 (hsel .data rfl)
  obtain ⟨dM, hdM, hkM, hlM⟩ := consolidateDict_full _ .mask (e.getDict .mask)
    (wfb_dict hw .mask).1 (hsel .mask rfl)
  obtain ⟨dS, hdS, hkS, hlS⟩ := consolidateDict_full _ .scalar (e.getDict .scalar)
    (wfb_dict hw .scalar).1 (hsel .scalar rfl)
  obtain ⟨dL, hdL, hkL, hlL⟩ := consolidateDict_full _ .label (e.getDict .label)
    (wfb_dict hw .label).1 (hsel .label rfl)
  obtain ⟨dV, hdV, hkV, hlV⟩ := consolidateDict_full _ .vector (e.getDict .vector)
    (wfb_dict hw .vector).1 (hsel .vector rfl)
  have hfold := consolidateFtFold2 _ e dA dM dS dL dV hdA hdM hdS hdL hdV
  refine ⟨{ e with
      data := dA,
      mask := dM,
      scalar := dS,
      label := dL,
      vector := dV,
      timestamp := e.timestamp.filter (fun t => keep.contains t) },
    e.timestamp.filter (fun t => !keep.contains t), ?_, rfl, rfl, ?_, ?_, ?_, rfl⟩
  · show ((allFeatureTypes.filter (fun ft => ft.is_time_dependent)).foldlM
      (fun ep ft => do
        let d ← consolidateDict (goodIdxsOf e.timestamp
          (e.timestamp.dedup.filter (fun t => !keep.contains t))) ft (ep.getDict ft)
        (Except.ok (ep.setDict ft d) : Except EOError EOPatch)) e >>= fun e1 =>
      (Except.ok ({ e1 with timestamp :=
        (e.timestamp.enum.filter (fun p => !((e.timestamp.dedup.filter
          (fun t => !keep.contains t)).map
          (fun t => e.timestamp.indexOf t)).contains p.fst)).map Prod.snd },
        e.timestamp.dedup.filter (fun t => !keep.contains t))
        : Except EOError (EOPatch × List Nat))) = _
    rw [hfold]
    simp only [exceptOkBind]
    rw [goodTimestamps_eq_of_nodup hnd, List.dedup_eq_self.mpr hnd]
  · intro t
    rw [List.mem_filter]
    constructor
    · rintro ⟨hm, hp⟩
      refine ⟨hm, fun hc => ?_⟩
      rw [nat_contains_iff.mpr hc] at hp
      simp at hp
    · rintro ⟨hm, hp⟩
      refine ⟨hm, ?_⟩
      cases hc : keep.contains t with
      | false => rfl
      | true => exact absurd (nat_contains_iff.mp hc) hp
  · intro ft htdep
    have hmain : ∀ (dX : FDict),
        fdKeys dX = fdKeys (e.getDict ft) →
        (∀ k v, (e.getDict ft).lookup k = some v →
          ∃ v2, selectIdxs (goodIdxsOf e.timestamp
            (e.timestamp.dedup.filter (fun t => !keep.contains t))) v = .ok v2 ∧
            dX.lookup k = some v2) →
        fdKeys dX = fdKeys (e.getDict ft) ∧
        (∀ k a r, (e.getDict ft).lookup k = some (.array a) →
          a.shape = e.timestamp.length :: r →
          dX.lookup k = some (.array
            ⟨((List.range e.timestamp.length).filter
                (fun i => keep.contains (e.timestamp.getD i 0))).length :: r,
              (((List.range e.timestamp.length).filter
                (fun i => keep.contains (e.timestamp.getD i 0))).map
                (fun i => (a.buf.drop (i * r.prod)).take r.prod)).flatten⟩)) ∧
        (∀ k l, (e.getDict ft).lookup k = some (.vlist l) →
          l.length = e.timestamp.length →
          dX.lookup k = some (.vlist
            (((List.range e.timestamp.length).filter
              (fun i => keep.contains (e.timestamp.getD i 0))).map
              (fun i => l.getD i 0)))) := by
      intro dX hkX hlX
      refine ⟨hkX, ?_, ?_⟩
      · intro k a r hlook hsh
        obtain ⟨v2, hs, hget⟩ := hlX k (.array a) hlook
        rw [selectIdxs_array hsh hboundg] at hs
        rw [hget, ← Except.ok.inj hs, hgood]
      · intro k l hlook hlen
        obtain ⟨v2, hs, hget⟩ := hlX k (.vlist l) hlook
        rw [selectIdxs_vlist hlen hboundg] at hs
        rw [hget, ← Except.ok.inj hs, hgood]
    cases ft with
    | data => exact hmain dA hkA hlA
    | mask => exact hmain dM hkM hlM
    | scalar => exact hmain dS hkS hlS
    | label => exact hmain dL hkL hlL
    | vector => exact hmain dV hkV hlV
    | data_timeless => simp [FeatureType.is_time_dependent] at htdep
    | mask_timeless => simp [FeatureType.is_time_dependent] at htdep
    | scalar_timeless => simp [FeatureType.is_time_dependent] at htdep
    | label_timeless => simp [FeatureType.is_time_dependent] at htdep
    | vector_timeless => simp [FeatureType.is_time_dependent] at htdep
    | meta_info => simp [FeatureType.is_time_dependent] at htdep
    | bbox => simp [FeatureType.is_time_dependent] at htdep
    | timestamp => simp [FeatureType.is_time_dependent] at htdep
  · intro ft htdep
    cases ft with
    | data => simp [FeatureType.is_time_dependent] at htdep
    | mask => simp [FeatureType.is_time_dependent] at htdep
    | scalar => simp [FeatureType.is_time_dependent] at htdep
    | label => simp [FeatureType.is_time_dependent] at htdep
    | vector => simp [FeatureType.is_time_dependent] at htdep
    | data_timeless => rfl
    | mask_timeless => rfl
    | scalar_timeless => rfl
    | label_timeless => rfl
    | vector_timeless => rfl
    | meta_info => rfl
    | bbox => rfl
    | timestamp => rfl

/-- Claim C8, counterexample.  The claim states consolidation removes exactly
the timestamps absent from the keep list.  The source removes only the first
occurrence index of each removed date: a patch with the duplicated timestamp
list [0, 0] consolidated against the empty keep list still ends with
timestamp [0], a date absent from the keep list, and reports the removed set
as the single date 0. -/
theorem c8_counterexample :
    ({ EOPatch.empty with timestamp := [0, 0] } : EOPatch).consolidate_timestamps [] =
      .ok ({ EOPatch.empty with timestamp := [0] }, [0]) ∧
    (0 : Nat) ∉ ([] : List Nat) :=
  ⟨by decide, by decide⟩

/-- Claim C8 witness: the amended theorem on a duplicate-free patch with
timestamps [10, 20, 30], a rank-4 data feature and a vector feature, keeping
[10, 30]. -/
theorem c8_witness :
    ∃ e2 rem,
      ({ EOPatch.empty with
        timestamp := [10, 20, 30],
        data := [("A", .array ⟨[3, 1, 1, 1], [1, 2, 3]⟩)],
        vector := [("V", .vlist [7, 8, 9])] } : EOPatch).consolidate_timestamps
          [10, 30] = .ok (e2, rem) ∧
      e2.timestamp = [10, 30] ∧ rem = [20] := by
  obtain ⟨e2, rem, h1, h2, h3, _⟩ := c8_amended
    { EOPatch.empty with
      timestamp := [10, 20, 30],
      data := [("A", .array ⟨[3, 1, 1, 1], [1, 2, 3]⟩)],
      vector := [("V", .vlist [7, 8, 9])] }
    [10, 30] (by decide) (by decide)
    (by
      intro ft htdep kv hm
      cases ft <;> simp [EOPatch.getDict, EOPatch.empty] at hm <;>
        (try (subst hm; decide)))
  exact ⟨e2, rem, h1, by rw [h2]; rfl, by rw [h3]; rfl⟩

/-! Reference-model lemmas for the copy-aliasing claim. -/

theorem readArr_lt {s : RefStore} {b : Nat} (hb : b < s.length) :
    readArr s b = some (s.getD b ⟨[], []⟩) := by
  show s.get? b = some (s.getD b ⟨[], []⟩)
  rw [List.get?_eq_getElem?, List.getElem?_eq_getElem hb, List.getD_eq_getElem s ⟨[], []⟩ hb]

theorem readArr_pref {s s2 : RefStore} (hp : s <+: s2) {b : Nat} (hb : b < s.length) :
    readArr s2 b = readArr s b := by
  obtain ⟨t, rfl⟩ := hp
  show (s ++ t).get? b = s.get? b
  rw [List.get?_eq_getElem?, List.get?_eq_getElem?, List.getElem?_append_left hb]

theorem readArr_write_ne {s : RefStore} {addr b : Nat} (h : addr ≠ b) (a : NdArray) :
    readArr (storeWrite s addr a) b = readArr s b := by
  show (s.set addr a).get? b = s.get? b
  rw [List.get?_eq_getElem?, List.get?_eq_getElem?, List.getElem?_set_ne h]

theorem readArr_write_self {s : RefStore} {addr : Nat} (h : addr < s.length) (a : NdArray) :
    readArr (storeWrite s addr a) addr = some a := by
  show (s.set addr a).get? addr = some a
  rw [List.get?_eq_getElem?]
  simp [List.getElem?_set_self, h]

theorem mem_addrs_of_lookup {p : RefPatch} {ft : FeatureType} {n : String} {addr : Nat}
    (h : (p.getRDict ft).lookup n = some addr) : addr ∈ p.addrs := by
  have hm : (n, addr) ∈ p.getRDict ft := alist_lookup_some_mem h
  exact List.mem_flatten.mpr ⟨(p.getRDict ft).map Prod.snd,
    List.mem_map_of_mem _ (by cases ft <;> simp [allFeatureTypes]),
    List.mem_map_of_mem Prod.snd hm⟩

theorem addr_lt_of_wf {p : RefPatch} {s : RefStore} (hwf : p.wfStore s = true) {addr : Nat}
    (h : addr ∈ p.addrs) : addr < s.length := by
  have := List.all_eq_true.mp hwf addr h
  simpa using this

theorem fresh_not_mem {p : RefPatch} {s : RefStore} (hwf : p.wfStore s = true) {addr2 : Nat}
    (h : s.length ≤ addr2) : addr2 ∉ p.addrs := by
  intro hm
  exact absurd (addr_lt_of_wf hwf hm) (by omega)

theorem mutation_invisible {s sFin : RefStore} (hp : s <+: sFin) {addr addr2 : Nat}
    (ha : addr < s.length) (h2 : s.length ≤ addr2) (a2 : NdArray) :
    readArr (storeWrite sFin addr2 a2) addr = readArr s addr := by
  rw [readArr_write_ne (by omega) a2, readArr_pref hp ha]

theorem deepCopyDict_pref (d : RDict) : ∀ (s : RefStore), s <+: (deepCopyDict s d).2 := by
  induction d with
  | nil => intro s; exact ⟨[], List.append_nil s⟩
  | cons na rest ih =>
    intro s
    obtain ⟨n, a⟩ := na
    have h1 : s <+: s ++ [s.getD a ⟨[], []⟩] := ⟨[s.getD a ⟨[], []⟩], rfl⟩
    exact h1.trans (ih (s ++ [s.getD a ⟨[], []⟩]))

theorem deepCopyDict_lookup (d : RDict) : ∀ (s0 sIn : RefStore), s0 <+: sIn →
    (∀ na, na ∈ d → na.snd < s0.length) →
    ∀ (n : String) (addr : Nat), d.lookup n = some addr →
    ∃ addr2, (deepCopyDict sIn d).1.lookup n = some addr2 ∧
      sIn.length ≤ addr2 ∧ addr2 < (deepCopyDict sIn d).2.length ∧
      readArr (deepCopyDict sIn d).2 addr2 = readArr s0 addr := by
  induction d with
  | nil => intro s0 sIn _ _ n addr hl; simp [List.lookup] at hl
  | cons na rest ih =>
    intro s0 sIn hpre hwf n addr hl
    obtain ⟨k, a⟩ := na
    rcases eq_or_ne k n with rfl | hk
    · rw [alist_lookup_cons_self] at hl
      obtain rfl := Option.some.inj hl
      refine ⟨sIn.length, ?_, le_refl _, ?_, ?_⟩
      · show ((k, sIn.length) :: (deepCopyDict (sIn ++ [sIn.getD a ⟨[], []⟩]) rest).1).lookup k =
            some sIn.length
        exact alist_lookup_cons_self k sIn.length _
      · show sIn.length < (deepCopyDict (sIn ++ [sIn.getD a ⟨[], []⟩]) rest).2.length
        have hp2 := (deepCopyDict_pref rest (sIn ++ [sIn.getD a ⟨[], []⟩])).length_le
        rw [List.length_append] at hp2
        simp only [List.length_cons, List.length_nil] at hp2
        omega
      · show readArr (deepCopyDict (sIn ++ [sIn.getD a ⟨[], []⟩]) rest).2 sIn.length =
            readArr s0 a
        have hlt0 : a < s0.length := hwf (k, a) (List.mem_cons_self _ _)
        rw [readArr_pref (deepCopyDict_pref rest (sIn ++ [sIn.getD a ⟨[], []⟩])) (by simp)]
        show (sIn ++ [sIn.getD a ⟨[], []⟩]).get? sIn.length = readArr s0 a
        rw [List.get?_concat_length]
        obtain ⟨t0, rfl⟩ := hpre
        rw [readArr_lt hlt0, List.getD_append s0 t0 ⟨[], []⟩ a hlt0]
    · rw [alist_lookup_cons_ne hk] at hl
      have hwf2 : ∀ na, na ∈ rest → na.snd < s0.length :=
        fun na hna => hwf na (List.mem_cons_of_mem _ hna)
      have hpre2 : s0 <+: sIn ++ [sIn.getD a ⟨[], []⟩] :=
        hpre.trans ⟨[sIn.getD a ⟨[], []⟩], rfl⟩
      obtain ⟨addr2, hl2, hge, hlt2, hrd⟩ :=
        ih s0 (sIn ++ [sIn.getD a ⟨[], []⟩]) hpre2 hwf2 n addr hl
      refine ⟨addr2, ?_, ?_, ?_, ?_⟩
      · show ((k, sIn.length) :: (deepCopyDict (sIn ++ [sIn.getD a ⟨[], []⟩]) rest).1).lookup n =
            some addr2
        rw [alist_lookup_cons_ne hk]
        exact hl2
      · have h5 : sIn.length ≤ (sIn ++ [sIn.getD a ⟨[], []⟩]).length := by
          rw [List.length_append]; omega
        exact le_trans h5 hge
      · show addr2 < (deepCopyDict (sIn ++ [sIn.getD a ⟨[], []⟩]) rest).2.length
        exact hlt2
      · show readArr (deepCopyDict (sIn ++ [sIn.getD a ⟨[], []⟩]) rest).2 addr2 = readArr s0 addr
        exact hrd

theorem deep_stage {p : RefPatch} {s : RefStore} (hwf : p.wfStore s = true)
    (ft : FeatureType) {sIn : RefStore} (hpre : s <+: sIn)
    {n : String} {addr addr2 : Nat}
    (hsrc : (p.getRDict ft).lookup n = some addr)
    (hcopy : (deepCopyDict sIn (p.getRDict ft)).1.lookup n = some addr2)
    {sFin : RefStore} (hfin : (deepCopyDict sIn (p.getRDict ft)).2 <+: sFin) :
    s.length ≤ addr2 ∧ readArr sFin addr2 = readArr s addr := by
  have hwfd : ∀ na, na ∈ p.getRDict ft → na.snd < s.length := by
    intro na hna
    apply addr_lt_of_wf hwf
    exact List.mem_flatten.mpr ⟨(p.getRDict ft).map Prod.snd,
      List.mem_map_of_mem _ (by cases ft <;> simp [allFeatureTypes]),
      List.mem_map_of_mem Prod.snd hna⟩
  obtain ⟨a2, hl2, hge, hlt2, hrd⟩ := deepCopyDict_lookup (p.getRDict ft) s sIn hpre hwfd n addr hsrc
  obtain rfl := Option.some.inj (hl2.symm.trans hcopy)
  constructor
  · exact le_trans hpre.length_le hge
  · rw [readArr_pref hfin hlt2]
    exact hrd

theorem dc_pref (p : RefPatch) (s : RefStore) :
    s <+: dcS1 p s ∧ dcS1 p s <+: dcS2 p s ∧ dcS2 p s <+: dcS3 p s ∧
    dcS3 p s <+: dcS4 p s ∧ dcS4 p s <+: dcS5 p s ∧ dcS5 p s <+: dcS6 p s ∧
    dcS6 p s <+: dcS7 p s ∧ dcS7 p s <+: dcS8 p s ∧ dcS8 p s <+: dcS9 p s ∧
    dcS9 p s <+: dcS10 p s ∧ dcS10 p s <+: dcS11 p s :=
  ⟨deepCopyDict_pref _ _, deepCopyDict_pref _ _, deepCopyDict_pref _ _, deepCopyDict_pref _ _,
   deepCopyDict_pref _ _, deepCopyDict_pref _ _, deepCopyDict_pref _ _, deepCopyDict_pref _ _,
   deepCopyDict_pref _ _, deepCopyDict_pref _ _, deepCopyDict_pref _ _⟩

theorem dc_front (p : RefPatch) (s : RefStore) :
    s <+: dcS1 p s ∧ s <+: dcS2 p s ∧ s <+: dcS3 p s ∧ s <+: dcS4 p s ∧
    s <+: dcS5 p s ∧ s <+: dcS6 p s ∧ s <+: dcS7 p s ∧ s <+: dcS8 p s ∧
    s <+: dcS9 p s ∧ s <+: dcS10 p s ∧ s <+: dcS11 p s := by
  obtain ⟨h1, h2, h3, h4, h5, h6, h7, h8, h9, h10, h11⟩ := dc_pref p s
  have g1 := h1
  have g2 := g1.trans h2
  have g3 := g2.trans h3
  have g4 := g3.trans h4
  have g5 := g4.trans h5
  have g6 := g5.trans h6
  have g7 := g6.trans h7
  have g8 := g7.trans h8
  have g9 := g8.trans h9
  have g10 := g9.trans h10
  have g11 := g10.trans h11
  exact ⟨g1, g2, g3, g4, g5, g6, g7, g8, g9, g10, g11⟩

theorem dc_tail (p : RefPatch) (s : RefStore) :
    dcS1 p s <+: dcS11 p s ∧ dcS2 p s <+: dcS11 p s ∧ dcS3 p s <+: dcS11 p s ∧
    dcS4 p s <+: dcS11 p s ∧ dcS5 p s <+: dcS11 p s ∧ dcS6 p s <+: dcS11 p s ∧
    dcS7 p s <+: dcS11 p s ∧ dcS8 p s <+: dcS11 p s ∧ dcS9 p s <+: dcS11 p s ∧
    dcS10 p s <+: dcS11 p s ∧ dcS11 p s <+: dcS11 p s := by
  obtain ⟨h1, h2, h3, h4, h5, h6, h7, h8, h9, h10, h11⟩ := dc_pref p s
  have t11 : dcS11 p s <+: dcS11 p s := ⟨[], List.append_nil _⟩
  have t10 := h11.trans t11
  have t9 := h10.trans t10
  have t8 := h9.trans t9
  have t7 := h8.trans t8
  have t6 := h7.trans t7
  have t5 := h6.trans t6
  have t4 := h5.trans t5
  have t3 := h4.trans t4
  have t2 := h3.trans t3
  have t1 := h2.trans t2
  exact ⟨t1, t2, t3, t4, t5, t6, t7, t8, t9, t10, t11⟩

/-- Claim C6: in the reference model of EOPatch.__copy__ and
EOPatch.__deepcopy__ over a buffer store, for every patch whose reachable
addresses are live: the shallow copy holds exactly the source's buffer
addresses (in this value-level model it is the identical patch), so an
in-place mutation of a buffer reached through the copy is read back through
the source's feature; the deep copy holds only freshly allocated addresses —
none reachable from the source — whose initial contents equal the source
feature's buffer, and an in-place mutation of any deep-copy buffer leaves
every read through the source patch unchanged. -/
theorem c6_copy_aliasing (p : RefPatch) (s : RefStore) (hwf : p.wfStore s = true) :
    (p.shallowCopy = p ∧
      ∀ (ft : FeatureType) (n : String) (addr : Nat) (a2 : NdArray),
        ((p.shallowCopy).getRDict ft).lookup n = some addr →
        (p.getRDict ft).lookup n = some addr ∧
        readArr (storeWrite s addr a2) addr = some a2) ∧
    (∀ (ft : FeatureType) (n : String) (addr addr2 : Nat) (a2 : NdArray),
      (p.getRDict ft).lookup n = some addr →
      (((p.deepCopy s).1).getRDict ft).lookup n = some addr2 →
      addr2 ∉ p.addrs ∧
      readArr ((p.deepCopy s).2) addr2 = readArr s addr ∧
      readArr (storeWrite ((p.deepCopy s).2) addr2 a2) addr = readArr s addr) := by
  constructor
  · refine ⟨rfl, ?_⟩
    intro ft n addr a2 hl
    have hl2 : (p.getRDict ft).lookup n = some addr := hl
    exact ⟨hl2, readArr_write_self (addr_lt_of_wf hwf (mem_addrs_of_lookup hl2)) a2⟩
  · intro ft n addr addr2 a2 hsrc hcopy
    obtain ⟨c1, c2, c3, c4, c5, c6, c7, c8, c9, c10, c11⟩ := dc_front p s
    obtain ⟨t1, t2, t3, t4, t5, t6, t7, t8, t9, t10, t11⟩ := dc_tail p s
    have hlt : addr < s.length := addr_lt_of_wf hwf (mem_addrs_of_lookup hsrc)
    cases ft with
    | data =>
        have hst := deep_stage hwf .data ⟨[], List.append_nil s⟩ hsrc hcopy t1
        exact ⟨fresh_not_mem hwf hst.1, hst.2, mutation_invisible c11 hlt hst.1 a2⟩
    | mask =>
        have hst := deep_stage hwf .mask c1 hsrc hcopy t2
        exact ⟨fresh_not_mem hwf hst.1, hst.2, mutation_invisible c11 hlt hst.1 a2⟩
    | scalar =>
        have hst := deep_stage hwf .scalar c2 hsrc hcopy t3
        exact ⟨fresh_not_mem hwf hst.1, hst.2, mutation_invisible c11 hlt hst.1 a2⟩
    | label =>
        have hst := deep_stage hwf .label c3 hsrc hcopy t4
        exact ⟨fresh_not_mem hwf hst.1, hst.2, mutation_invisible c11 hlt hst.1 a2⟩
    | vector =>
        have hst := deep_stage hwf .vector c4 hsrc hcopy t5
        exact ⟨fresh_not_mem hwf hst.1, hst.2, mutation_invisible c11 hlt hst.1 a2⟩
    | data_timeless =>
        have hst := deep_stage hwf .data_timeless c5 hsrc hcopy t6
        exact ⟨fresh_not_mem hwf hst.1, hst.2, mutation_invisible c11 hlt hst.1 a2⟩
    | mask_timeless =>
        have hst := deep_stage hwf .mask_timeless c6 hsrc hcopy t7
        exact ⟨fresh_not_mem hwf hst.1, hst.2, mutation_invisible c11 hlt hst.1 a2⟩
    | scalar_timeless =>
        have hst := deep_stage hwf .scalar_timeless c7 hsrc hcopy t8
        exact ⟨fresh_not_mem hwf hst.1, hst.2, mutation_invisible c11 hlt hst.1 a2⟩
    | label_timeless =>
        have hst := deep_stage hwf .label_timeless c8 hsrc hcopy t9
        exact ⟨fresh_not_mem hwf hst.1, hst.2, mutation_invisible c11 hlt hst.1 a2⟩
    | vector_timeless =>
        have hst := deep_stage hwf .vector_timeless c9 hsrc hcopy t10
        exact ⟨fresh_not_mem hwf hst.1, hst.2, mutation_invisible c11 hlt hst.1 a2⟩
    | meta_info =>
        have hst := deep_stage hwf .meta_info c10 hsrc hcopy t11
        exact ⟨fresh_not_mem hwf hst.1, hst.2, mutation_invisible c11 hlt hst.1 a2⟩
    | bbox => simp [RefPatch.getRDict, List.lookup] at hsrc
    | timestamp => simp [RefPatch.getRDict, List.lookup] at hsrc

/-- Claim C6 witness: the aliasing theorem applied to a patch holding one
data feature at buffer address 0 of a two-buffer store.  The shallow copy
shares address 0, so writing a new buffer there is read back through the
source; the deep copy's feature sits at the fresh address 2 with contents
equal to the source buffer, and writing through it leaves the source's read
unchanged. -/
theorem c6_witness :
    c6pW.wfStore c6sW = true ∧
    ((c6pW.getRDict .data).lookup "A" = some 0 ∧
      readArr (storeWrite c6sW 0 ⟨[1], [9]⟩) 0 = some ⟨[1], [9]⟩) ∧
    (2 ∉ c6pW.addrs ∧
      readArr (c6pW.deepCopy c6sW).2 2 = readArr c6sW 0 ∧
      readArr (storeWrite (c6pW.deepCopy c6sW).2 2 ⟨[1], [9]⟩) 0 = readArr c6sW 0) :=
  ⟨by decide,
   (c6_copy_aliasing c6pW c6sW (by decide)).1.2 .data "A" 0 ⟨[1], [9]⟩ (by decide),
   (c6_copy_aliasing c6pW c6sW (by decide)).2 .data "A" 0 2 ⟨[1], [9]⟩ (by decide) (by decide)⟩
